import Mathlib

/-!
Shallow embedding of the SLR(1) parser generator and driver from
`src/parser/syntax_analysis.rs` (Ling-yunchi/SLR1-Parser).

Rust `HashMap<String, _>` values are embedded as association lists with
unique keys (`mapInsert` replaces an existing binding); only key/value
content is observable in the source (iteration order of a `HashMap` is
arbitrary and the final table contents are order-independent), so this
is faithful.  Rust panics (`unwrap`, out-of-bounds indexing) are embedded
as `Option.none`, and every `while` loop carries an explicit fuel
parameter; a fueled function returns `some r` exactly when the Rust loop
terminates in the same number of iterations with result `r`.
-/

namespace SLR1

/-- `Product { left, right }` from the source. -/
structure Product where
  left : String
  right : List String
deriving DecidableEq, Repr

/-- `Grammar { s, v, t, p }` from the source. -/
structure Grammar where
  s : String
  v : List String
  t : List String
  p : List Product
deriving DecidableEq, Repr

/-- Association-list lookup, embedding `HashMap::get`. -/
def mapGet {α : Type} : List (String × α) → String → Option α
  | [], _ => none
  | (k, v) :: rest, k2 => if k = k2 then some v else mapGet rest k2

/-- Association-list insert, embedding `HashMap::insert` (replaces an
existing binding, otherwise appends). -/
def mapInsert {α : Type} : List (String × α) → String → α → List (String × α)
  | [], k2, v2 => [(k2, v2)]
  | (k, v) :: rest, k2, v2 =>
    if k = k2 then (k2, v2) :: rest else (k, v) :: mapInsert rest k2 v2

/-- `str.starts_with(pre)`, over the character lists (the core
`String.startsWith` does not reduce in the kernel). -/
def strStartsWith (s pre : String) : Bool :=
  pre.data.isPrefixOf s.data

/-- `&str[1..]` on ASCII strings: drop `n` characters. -/
def strDrop (s : String) (n : Nat) : String :=
  ⟨s.data.drop n⟩

/-- One decimal digit of `str::parse::<usize>`. -/
def charDigit? (c : Char) : Option Nat :=
  if 48 ≤ c.toNat ∧ c.toNat ≤ 57 then some (c.toNat - 48) else none

/-- `str.parse::<usize>()`: all-digit strings parse, anything else
(including the empty string) is an error (`none`). -/
def strToNat? (s : String) : Option Nat :=
  match s.data with
  | [] => none
  | ds => ds.foldlM (fun acc c => (charDigit? c).map (fun d => acc * 10 + d)) 0

/-- Decimal digits of `n`, fueled (kernel-reducible replacement for
`toString`; the fuel `n + 1` always suffices since `n / 10 < n`). -/
def natToStrAux : Nat → Nat → List Char → List Char
  | 0, _, acc => acc
  | fuel + 1, n, acc =>
    if n < 10 then Char.ofNat (48 + n) :: acc
    else natToStrAux fuel (n / 10) (Char.ofNat (48 + n % 10) :: acc)

/-- `format!("{}", n)` for a `usize`. -/
def natToStr (n : Nat) : String :=
  ⟨natToStrAux (n + 1) n []⟩

/-- `first`/`follow` maps: symbol to list of terminals. -/
abbrev FMap := List (String × List String)

/-- ACTION/GOTO table rows: symbol to action string. -/
abbrev SMap := List (String × String)

/-- `Grammar::validate` from the source: the duplicate check compares the
cardinality of the set `V ∪ T` with `|V| + |T|`, then checks the start
symbol, production lefts and production rights in order. -/
def Grammar.validate (g : Grammar) : Except String Unit :=
  if ((g.v ++ g.t).dedup).length ≠ g.v.length + g.t.length then
    .error "终结符和非终结符存在重复元素"
  else if g.s ∉ g.v then
    .error "开始符号不在非终结符集中"
  else if ¬ (∀ p ∈ g.p, p.left ∈ g.v) then
    .error "产生式左部不在非终结符集中"
  else if ¬ (∀ p ∈ g.p, ∀ r ∈ p.right, r ∈ g.v ∨ r ∈ g.t) then
    .error "产生式右部不在非终结符集和终结符集中"
  else
    .ok ()

/-- `first.get_mut(k).unwrap().push(x)`: panics (`none`) when `k` is absent. -/
def pushVal (m : FMap) (k : String) (x : String) : Option FMap :=
  match mapGet m k with
  | none => none
  | some xs => some (mapInsert m k (xs ++ [x]))

/-- `union_first` from the source: merge `y`'s first set into `x`'s
(dropping ε when `discard`), via a `HashSet` round-trip (deduplication),
returning whether the set grew.  Panics (`none`) when a key is absent. -/
def union_first (m : FMap) (x y : String) (discard : Bool) : Option (FMap × Bool) := do
  let xf ← mapGet m x
  let before := xf.length
  let yf ←
    if y = "ε" then
      if discard then some [] else some ["ε"]
    else do
      let v ← mapGet m y
      if discard then some (v.filter (fun s => s ≠ "ε")) else some v
  let x2 := (xf ++ yf).dedup
  some (mapInsert m x x2, decide (before < x2.length))

/-- Initialization phase of `get_first`: terminals map to themselves,
non-terminals start empty, then the first pass over productions.  The
access `p.right[0]` panics (`none`) on an empty right-hand side. -/
def get_first_init (g : Grammar) : Option FMap := do
  let m0 := g.t.foldl (fun m t => mapInsert m t [t]) []
  let m1 := g.v.foldl (fun m v => mapInsert m v []) m0
  g.p.foldlM (fun m p => do
    let r0 ← p.right.head?
    let m ← if r0 ∈ g.t then pushVal m p.left r0 else some m
    if p.right = ["ε"] then pushVal m p.left "ε" else some m) m1

/-- The inner `for i in 0..p.right.len()` loop of `get_first`'s fixpoint
pass, iterating over the suffix `p.right[i..]` of the right-hand side
(so the head of the argument is `p.right[i]`).  Mirrors the source
exactly: when `FIRST(right[i])` contains ε it accesses `p.right[i + 1]`
— the head of the suffix's tail — which panics (`none`) when `i` is the
last index.  Each `union_first` result overwrites the `changed` flag;
the `break` reports `need_epsilon = false`. -/
def firstInner (p : Product) : FMap → Bool → List String → Option (FMap × Bool × Bool)
  | m, changed, [] => some (m, changed, true)
  | m, _changed, yi :: rest => do
    let fi ← mapGet m yi
    if fi.contains "ε" then do
      let y ← rest.head?
      let (m2, ch) ← union_first m p.left y true
      firstInner p m2 ch rest
    else
      some (m, _changed, false)

/-- Processing of one production inside `get_first`'s fixpoint pass. -/
def firstProd (g : Grammar) (st : FMap × Bool) (p : Product) : Option (FMap × Bool) := do
  let (m, changed) := st
  let r0 ← p.right.head?
  let (m, changed) ← if r0 ∈ g.v then union_first m p.left r0 true else some (m, changed)
  if p.right.length = 1 then
    some (m, changed)
  else do
    let (m, changed, needEps) ← firstInner p m changed p.right
    if needEps then union_first m p.left "ε" false else some (m, changed)

/-- One full pass of `get_first`'s `while changed` loop. -/
def firstPass (g : Grammar) (m : FMap) : Option (FMap × Bool) :=
  g.p.foldlM (firstProd g) (m, false)

/-- The `while changed` loop of `get_first`, fueled. -/
def firstIter (g : Grammar) : Nat → FMap → Option FMap
  | 0, _ => none
  | fuel + 1, m => do
    let (m2, changed) ← firstPass g m
    if changed then firstIter g fuel m2 else some m2

/-- `get_first` from the source. -/
def get_first (fuel : Nat) (g : Grammar) : Option FMap := do
  let m ← get_first_init g
  firstIter g fuel m

/-- `union_follow` from the source. -/
def union_follow (m : FMap) (x y : String) : Option (FMap × Bool) := do
  let xf ← mapGet m x
  let before := xf.length
  let yf ← if y = "ε" then some ["ε"] else mapGet m y
  let x2 := (xf ++ yf).dedup
  some (mapInsert m x x2, decide (before < x2.length))

/-- The `for i in 0..a.len()` loop of `get_first_all`, iterating over
the suffix `a[i..]`, with its `break`.  Returns the updated map and
`need_epsilon`. -/
def gfaLoop (akey : String) : FMap → List String → Option (FMap × Bool)
  | m, [] => some (m, true)
  | m, ai :: rest => do
    let fi ← mapGet m ai
    if fi.contains "ε" then do
      let (m2, _) ← union_first m akey ai true
      gfaLoop akey m2 rest
    else do
      let (m2, _) ← union_first m akey ai true
      some (m2, false)

/-- `get_first_all` from the source: FIRST of a symbol sequence, cached
in the map under the space-joined key. -/
def get_first_all (m : FMap) (a : List String) : Option (FMap × List String) :=
  if a.length = 1 then do
    let h ← a.head?
    let v ← mapGet m h
    some (m, v)
  else
    let akey := String.intercalate " " a
    match mapGet m akey with
    | some v => some (m, v)
    | none => do
      let m := mapInsert m akey []
      let (m, needEps) ← gfaLoop akey m a
      let m ← if needEps then (union_first m akey "ε" false).map (·.1) else some m
      let v ← mapGet m akey
      some (m, v)

/-- The `for i in 0..p.right.len()` loop of `get_follow_with_first`'s
fixpoint pass, threading the first map (mutated by `get_first_all`
caching), the follow map and the `changed` flag.  As in the source, the
last-symbol case and the ε case *assign* `changed` (overwriting its
previous value), while the direct FIRST(β)\{ε} addition or-accumulates. -/
def followInner (g : Grammar) (p : Product) :
    FMap → FMap → Bool → List String → Option (FMap × FMap × Bool)
  | fm, fol, changed, [] => some (fm, fol, changed)
  | fm, fol, changed, bi :: rest =>
    if bi ∉ g.v then
      followInner g p fm fol changed rest
    else if rest = [] then do
      let (fol2, ch) ← union_follow fol bi p.left
      followInner g p fm fol2 ch rest
    else do
      let (fm2, betaFirst) ← get_first_all fm rest
      let (fol2, changed2) ←
        if betaFirst.contains "ε" then union_follow fol bi p.left else some (fol, changed)
      let bf ← mapGet fol2 bi
      let before := bf.length
      let b2 := (bf ++ betaFirst.filter (fun s => s ≠ "ε")).dedup
      followInner g p fm2 (mapInsert fol2 bi b2) (changed2 || decide (before < b2.length)) rest

/-- One full pass of `get_follow_with_first`'s `while changed` loop. -/
def followPass (g : Grammar) (fm : FMap) (fol : FMap) : Option (FMap × FMap × Bool) :=
  g.p.foldlM (fun (st : FMap × FMap × Bool) p => followInner g p st.1 st.2.1 st.2.2 p.right)
    (fm, fol, false)

/-- The `while changed` loop of `get_follow_with_first`, fueled. -/
def followIter (g : Grammar) : Nat → FMap → FMap → Option FMap
  | 0, _, _ => none
  | fuel + 1, fm, fol => do
    let (fm2, fol2, changed) ← followPass g fm fol
    if changed then followIter g fuel fm2 fol2 else some fol2

/-- `get_follow_with_first` from the source: initialize every
non-terminal's follow set to empty, seed `#` into `FOLLOW(S)` (panicking
when `S ∉ V`), then iterate to the (early-exiting) fixpoint. -/
def get_follow_with_first (fuel : Nat) (g : Grammar) (fm : FMap) : Option FMap := do
  let fol0 := g.v.foldl (fun m v => mapInsert m v []) []
  let fol1 ← pushVal fol0 g.s "#"
  followIter g fuel fm fol1

/-- `get_follow` from the source. -/
def get_follow (fuel : Nat) (g : Grammar) : Option FMap := do
  let fm ← get_first fuel g
  get_follow_with_first fuel g fm

/-- An LR(0) `Item` from the source: a production with a dot position. -/
structure Item where
  left : String
  right : List String
  dot : Nat
deriving DecidableEq, Repr

/-- The inner `g.p.iter().filter(|p| p.left == *a).for_each(...)` of
`closure`, processing the production list sequentially: add the dot-0
item of every production of `a` not yet present, to both the closure
`j` and the queue `e`. -/
def closureStep (a : String) : List Product → List Item × List Item → List Item × List Item
  | [], je => je
  | p :: ps, je =>
    closureStep a ps
      (if p.left = a then
        (if (⟨p.left, p.right, 0⟩ : Item) ∈ je.1 then je
         else (je.1 ++ [⟨p.left, p.right, 0⟩], je.2 ++ [⟨p.left, p.right, 0⟩]))
       else je)

/-- The `while e.len() > 0` worklist loop of `closure`, fueled.  `j` is
the closure so far, `e` the queue of unprocessed items. -/
def closureLoop (g : Grammar) : Nat → List Item → List Item → Option (List Item)
  | _, j, [] => some j
  | 0, _, _ :: _ => none
  | fuel + 1, j, item :: rest =>
    if h : item.dot < item.right.length then
      let a := item.right.get ⟨item.dot, h⟩
      if a ∈ g.v then
        closureLoop g fuel (closureStep a g.p (j, rest)).1 (closureStep a g.p (j, rest)).2
      else
        closureLoop g fuel j rest
    else
      closureLoop g fuel j rest

/-- `closure` from the source. -/
def closure (fuel : Nat) (i : List Item) (g : Grammar) : Option (List Item) :=
  closureLoop g fuel i i

/-- The item-advancing scan of `goto`: collect `A → αx·β` for every
item `A → α·xβ` of the set (with `x ∈ V ∪ T`), in order. -/
def gotoAdv (g : Grammar) (x : String) : List Item → List Item → List Item
  | [], acc => acc
  | item :: items, acc =>
    gotoAdv g x items
      (if h : item.dot < item.right.length then
        (if item.right.get ⟨item.dot, h⟩ = x ∧
            (item.right.get ⟨item.dot, h⟩ ∈ g.v ∨ item.right.get ⟨item.dot, h⟩ ∈ g.t) then
          acc ++ [⟨item.left, item.right, item.dot + 1⟩]
        else acc)
       else acc)

/-- `goto` from the source: advance the dot over `x` in every item that
has `x` immediately after the dot (and `x ∈ V ∪ T`), then close. -/
def goto (fuel : Nat) (items : List Item) (x : String) (g : Grammar) : Option (List Item) :=
  closure fuel (gotoAdv g x items []) g

/-- `items_eq` from the source: same length and mutual containment
checked one-sidedly. -/
def items_eq (a b : List Item) : Bool :=
  a.length == b.length && a.all (fun i => decide (i ∈ b))

/-- Body of the worklist loop of `get_lr0_collection` for one symbol
`x`: compute `goto(items, x)` and append it to the collection `c` and
queue `e` when non-empty and new (`Vec` equality, order-sensitive). -/
def lr0Step (cfuel : Nat) (g : Grammar) (items : List Item)
    (ce : List (List Item) × List (List Item)) (x : String) :
    Option (List (List Item) × List (List Item)) := do
  let toItems ← goto cfuel items x g
  if toItems.length > 0 then
    if toItems ∈ ce.1 then some ce
    else some (ce.1 ++ [toItems], ce.2 ++ [toItems])
  else
    some ce

/-- The `while e.len() > 0` worklist loop of `get_lr0_collection`, fueled. -/
def lr0Loop (cfuel : Nat) (g : Grammar) :
    Nat → List (List Item) → List (List Item) → Option (List (List Item))
  | _, c, [] => some c
  | 0, _, _ :: _ => none
  | fuel + 1, c, items :: rest => do
    let (c2, e2) ← (g.v ++ g.t).foldlM (lr0Step cfuel g items) (c, rest)
    lr0Loop cfuel g fuel c2 e2

/-- `get_lr0_collection` from the source: the seed production is the
*first* production whose left is the start symbol, and state 0 is its
closure. -/
def get_lr0_collection (cfuel lfuel : Nat) (g : Grammar) : Option (List (List Item)) := do
  let fp ← g.p.find? (fun p => p.left == g.s)
  let c0 ← closure cfuel [⟨fp.left, fp.right, 0⟩] g
  lr0Loop cfuel g lfuel [c0] [c0]

/-- The grammar augmentation performed at the start of `get_slr1_table`:
`S'` is `S` with an appended apostrophe, pushed onto `V`, with the new
production `S' → S` appended. -/
def augment (g : Grammar) : Grammar :=
  let s2 := g.s ++ "\x27"
  { s := s2, v := g.v ++ [s2], t := g.t, p := g.p ++ [⟨s2, [g.s]⟩] }

/-- The blank ACTION row: every terminal of the augmented grammar plus
`#` maps to the empty string. -/
def actionInitRow (g2 : Grammar) : SMap :=
  mapInsert (g2.t.foldl (fun r t => mapInsert r t "") []) "#" ""

/-- The blank GOTO row: every non-terminal except the augmented start
symbol (the source deduplicates through a `HashSet`) maps to "". -/
def gotoInitRow (g2 : Grammar) : SMap :=
  ((g2.v.dedup).filter (fun v => v ≠ g2.s)).foldl (fun r v => mapInsert r v "") []

/-- Table filling for a single item of state `i`, from the loop body of
`get_slr1_table`.  A dot before a symbol `ch` produces a shift (into
ACTION when `ch` is a terminal, into GOTO otherwise) towards the first
state `j` with `items_eq (goto items ch) (lr0[j])`; a dot at the end
produces `acc` under `#` for the augmented start symbol and otherwise
reduce entries under every terminal of `FOLLOW(left)` and under `#` when
present.  Absent `findIdx?`/`mapGet` results that the source `unwrap`s
are panics (`none`); a failed state search inserts nothing. -/
def fillItem (cfuel : Nat) (g2 : Grammar) (follow : FMap) (lr0 : List (List Item))
    (items : List Item) (i : Nat) (AG : List SMap × List SMap) (item : Item) :
    Option (List SMap × List SMap) :=
  let (A, G) := AG
  if h : item.dot < item.right.length then do
    let ch := item.right.get ⟨item.dot, h⟩
    let gt ← goto cfuel items ch g2
    match lr0.findIdx? (fun items1 => items_eq gt items1) with
    | none => some (A, G)
    | some j =>
      if ch ∈ g2.t then do
        let row ← A[i]?
        some (A.set i (mapInsert row ch ("s" ++ natToStr j)), G)
      else do
        let row ← G[i]?
        some (A, G.set i (mapInsert row ch (natToStr j)))
  else
    if item.left = g2.s then do
      let row ← A[i]?
      some (A.set i (mapInsert row "#" "acc"), G)
    else do
      let j ← g2.p.findIdx? (fun p => p.left == item.left && p.right == item.right)
      let flw ← mapGet follow item.left
      let A ← flw.foldlM (fun A f =>
        if f ∈ g2.t then do
          let row ← A[i]?
          some (A.set i (mapInsert row f ("r" ++ natToStr j)))
        else some A) A
      let A ←
        if "#" ∈ flw then do
          let row ← A[i]?
          some (A.set i (mapInsert row "#" ("r" ++ natToStr j)))
        else some A
      some (A, G)

/-- Table filling for one state (index, item list) of the collection. -/
def fillState (cfuel : Nat) (g2 : Grammar) (follow : FMap) (lr0 : List (List Item))
    (AG : List SMap × List SMap) (st : Nat × List Item) : Option (List SMap × List SMap) :=
  st.2.foldlM (fillItem cfuel g2 follow lr0 st.2 st.1) AG

/-- The full `for (i, items) in lr0_items.iter().enumerate()` loop. -/
def fillTables (cfuel : Nat) (g2 : Grammar) (follow : FMap) (lr0 : List (List Item))
    (AG : List SMap × List SMap) : Option (List SMap × List SMap) :=
  lr0.enum.foldlM (fillState cfuel g2 follow lr0) AG

/-- `get_slr1_table` from the source: FOLLOW of the *unaugmented*
grammar, augmentation, LR(0) collection, blank tables, then the fill
loop.  The Rust function's only `return` is `Ok((ACTION, GOTO))`, which
the embedding mirrors with `Except.ok`. -/
def get_slr1_table (fuel : Nat) (g : Grammar) :
    Option (Except String (List SMap × List SMap)) := do
  let follow ← get_follow fuel g
  let g2 := augment g
  let lr0 ← get_lr0_collection fuel fuel g2
  let A0 := lr0.map (fun _ => actionInitRow g2)
  let G0 := lr0.map (fun _ => gotoInitRow g2)
  let (A, G) ← fillTables fuel g2 follow lr0 (A0, G0)
  some (Except.ok (A, G))

/-- Token kinds from `lexical_analysis.rs` (the `Error` payload is
irrelevant to the driver's mapping). -/
inductive TokenType where
  | Keyword
  | Identifier
  | Constant
  | Operator
  | Delimiter
  | Error
deriving DecidableEq, Repr

/-- A lexical token. -/
structure Token where
  token_type : TokenType
  token_value : String
deriving DecidableEq, Repr

/-- The driver's token-to-terminal mapping from `slr1_analysis`. -/
def mapToken (tok : Token) : String :=
  match tok.token_type with
  | .Identifier => "id"
  | .Constant => "value"
  | _ => tok.token_value

/-- A driver configuration: the two stacks (`Vec`s growing at the right)
and the input buffer. -/
structure Config where
  state_stack : List Nat
  symbol_stack : List String
  buffer : List String
deriving DecidableEq, Repr

/-- Result of one iteration of the driver loop. -/
inductive StepRes where
  | cont : Config → StepRes
  | done : Bool → StepRes
  | panic : StepRes
deriving DecidableEq, Repr

/-- Pop `n` entries off the top (right end) of a stack; like `Vec::pop`,
popping an empty stack is a no-op. -/
def popN {α : Type} : List α → Nat → List α
  | l, 0 => l
  | l, n + 1 => popN l.dropLast n

/-- One iteration of the `loop` in `slr1_analysis`, in source order:
read the state-stack top (`unwrap`: panic when empty), the buffer head
(`false` when empty), index `ACTION[state]` (panic when out of bounds),
look the token up in the row (`false` when absent).  A `s`-action shifts,
an `r`-action pops `|right|` entries, pushes the production's left and
the parsed GOTO entry (`unwrap`s: panics), `acc` accepts, anything else
(including the empty string) is `false`. -/
def slr1Step (g : Grammar) (A G : List SMap) (cfg : Config) : StepRes :=
  match cfg.state_stack.getLast? with
  | none => .panic
  | some state =>
    match cfg.buffer.head? with
    | none => .done false
    | some token =>
      match A[state]? with
      | none => .panic
      | some row =>
        match mapGet row token with
        | none => .done false
        | some action =>
          if strStartsWith action "s" then
            match strToNat? (strDrop action 1) with
            | none => .panic
            | some j =>
              .cont ⟨cfg.state_stack ++ [j], cfg.symbol_stack ++ [token], cfg.buffer.tail⟩
          else if strStartsWith action "r" then
            match strToNat? (strDrop action 1) with
            | none => .panic
            | some k =>
              match g.p[k]? with
              | none => .panic
              | some p =>
                let ss := popN cfg.state_stack p.right.length
                let sys := popN cfg.symbol_stack p.right.length ++ [p.left]
                match ss.getLast? with
                | none => .panic
                | some s =>
                  match G[s]? with
                  | none => .panic
                  | some grow =>
                    match mapGet grow p.left with
                    | none => .panic
                    | some gact =>
                      match strToNat? gact with
                      | none => .panic
                      | some j => .cont ⟨ss ++ [j], sys, cfg.buffer⟩
          else if action = "acc" then .done true
          else .done false

/-- The driver's `loop`, fueled. -/
def slr1Loop (g : Grammar) (A G : List SMap) : Nat → Config → Option Bool
  | 0, _ => none
  | fuel + 1, cfg =>
    match slr1Step g A G cfg with
    | .done b => some b
    | .panic => none
    | .cont cfg2 => slr1Loop g A G fuel cfg2

/-- `slr1_analysis` from the source: map the tokens to terminals, append
`#`, and run the loop from `state_stack = [0]`, `symbol_stack = [#]`. -/
def slr1_analysis (fuel : Nat) (g : Grammar) (A G : List SMap) (tokens : List Token) :
    Option Bool :=
  slr1Loop g A G fuel ⟨[0], ["#"], tokens.map mapToken ++ ["#"]⟩

/-- The canonical expression grammar of the spec (§8), also the fixture
`GRAMMAR_YML` of the source's test module. -/
def exprGrammar : Grammar :=
  { s := "E"
  , v := ["E", "E\x27", "T", "T\x27", "F"]
  , t := ["ε", "+", "*", "(", ")", "id"]
  , p :=
    [ ⟨"E", ["T", "E\x27"]⟩
    , ⟨"E\x27", ["+", "T", "E\x27"]⟩
    , ⟨"E\x27", ["ε"]⟩
    , ⟨"T", ["F", "T\x27"]⟩
    , ⟨"T\x27", ["*", "F", "T\x27"]⟩
    , ⟨"T\x27", ["ε"]⟩
    , ⟨"F", ["(", "E", ")"]⟩
    , ⟨"F", ["id"]⟩ ] }

/-- A token sequence whose terminal mapping is `id + id * id`. -/
def tokensIdPlusIdTimesId : List Token :=
  [ ⟨.Identifier, "a"⟩, ⟨.Operator, "+"⟩, ⟨.Identifier, "b"⟩
  , ⟨.Operator, "*"⟩, ⟨.Identifier, "c"⟩ ]

/-! ### Fixture grammars and tables -/

/-- A minimal SLR(1) grammar `S → a`. -/
def g0 : Grammar := ⟨"S", ["S"], ["a"], [⟨"S", ["a"]⟩]⟩

/-- A validated grammar with a production whose right-hand side is empty. -/
def gEmptyRight : Grammar := ⟨"A", ["A"], [], [⟨"A", []⟩]⟩

/-- A validated grammar with a length-2 production all of whose
right-hand-side symbols have ε in their FIRST sets. -/
def gAllNullable : Grammar :=
  ⟨"X", ["X", "A", "B"], ["ε", "a"], [⟨"X", ["A", "B"]⟩, ⟨"A", ["ε"]⟩, ⟨"B", ["ε"]⟩]⟩

/-- The value of `get_first_init gAllNullable`. -/
def mAllNullable : FMap :=
  [("ε", ["ε"]), ("a", ["a"]), ("X", []), ("A", ["ε", "ε"]), ("B", ["ε", "ε"])]

/-- A validated grammar on which the FOLLOW fixpoint loop exits early:
the production list is ordered against the propagation chain
`S → U → V → W`. -/
def gFollowBug : Grammar :=
  ⟨"S", ["S", "U", "V", "W"], [], [⟨"V", ["W"]⟩, ⟨"U", ["V"]⟩, ⟨"S", ["U"]⟩]⟩

/-- A validated grammar with an ε-production, whose table has a shift in
the ε column. -/
def gShiftEps : Grammar := ⟨"S", ["S"], ["ε"], [⟨"S", ["ε"]⟩]⟩

/-- A grammar with only duplicate non-terminals (for the validator). -/
def gDup : Grammar := ⟨"A", ["A", "A"], [], []⟩

/-- Grammar for exercising a reduce step whose GOTO entry is missing. -/
def gGoto : Grammar := ⟨"A", ["A"], ["a"], [⟨"A", ["a"]⟩]⟩

/-- ACTION table sending state 0 on `a` to state 1 and reducing by
production 0 on `#` in state 1. -/
def aGoto : List SMap := [[("a", "s1")], [("#", "r0")]]

/-- GOTO table with no entries at all. -/
def gGotoTbl : List SMap := [[], []]

/-- Grammar with the ε-production `A → ε` (production 0). -/
def gEpsProd : Grammar := ⟨"A", ["A"], ["ε", "a", "b"], [⟨"A", ["ε"]⟩]⟩

/-- ACTION table reducing by production 0 in state 1 on lookahead `b`. -/
def aEpsProd : List SMap := [[("b", "x")], [("b", "r0")]]

/-- GOTO table with `GOTO[0][A] = 3` and `GOTO[1][A] = 7`. -/
def gotoEpsProd : List SMap := [[("A", "3")], [("A", "7")]]

/-- A mid-parse configuration about to reduce by `A → ε`. -/
def cfgEpsProd : Config := ⟨[0, 1], ["#", "a"], ["b", "#"]⟩

/-- `true` exactly on the `ok` variant (the success side of the Rust
`Result` returned by `get_slr1_table`). -/
def exceptIsOk : Except String (List SMap × List SMap) → Bool
  | .ok _ => true
  | .error _ => false

/-- The four validity conditions exactly as the claim lists them
(following the spec's words, for comparison with `Grammar.validate`):
`V` and `T` share no symbol, the start symbol is in `V`, every
production left is in `V`, every right symbol is in `V ∪ T`. -/
def specValid (g : Grammar) : Prop :=
  (∀ x ∈ g.v, x ∉ g.t) ∧ g.s ∈ g.v ∧ (∀ p ∈ g.p, p.left ∈ g.v) ∧
    (∀ p ∈ g.p, ∀ r ∈ p.right, r ∈ g.v ∨ r ∈ g.t)

/-! ### Generic helper lemmas -/

theorem dedup_length_iff {α : Type} [DecidableEq α] (l : List α) :
    l.dedup.length = l.length ↔ l.Nodup := by
  constructor
  · intro h
    have he := (List.dedup_sublist l).eq_of_length h
    rw [← he]
    exact List.nodup_dedup l
  · intro h
    rw [List.dedup_eq_self.mpr h]

theorem firstIter_none_of_pass_none (g : Grammar) (m : FMap)
    (h : firstPass g m = none) : ∀ fuel, firstIter g fuel m = none := by
  intro fuel
  cases fuel with
  | zero => rfl
  | succ n => simp [firstIter, h]

/-! ### C1 -/

/-- C1: the claim says the canonical expression grammar accepts
`id + id * id`; the code in fact rejects it (returns `false`): the
augmented start symbol `E'` collides with the existing non-terminal
`E'`, so state 0 is built from `E' → + T E'` and `ACTION[0]` has no
entry for `id`. -/
theorem C1_run_rejects :
    (get_slr1_table 100 exprGrammar).bind
      (fun r => match r with
        | .ok (A, G) => slr1_analysis 100 exprGrammar A G tokensIdPlusIdTimesId
        | .error _ => none) = some false := by
  rfl

/-! ### C3 -/

/-- C3: the claim says `get_first`/`get_follow` are total on validated
grammars, including an empty right-hand side and a length-≥2 production
with all-nullable right; the code panics (`none` for every fuel) on
both: `p.right[0]` is out of bounds on `gEmptyRight`, and
`p.right[i + 1]` is out of bounds on `gAllNullable`. -/
theorem C3_first_panics :
    gEmptyRight.validate = .ok () ∧ gAllNullable.validate = .ok () ∧
    (∀ fuel, get_first fuel gEmptyRight = none) ∧
    (∀ fuel, get_first fuel gAllNullable = none) ∧
    (∀ fuel, get_follow fuel gEmptyRight = none) ∧
    (∀ fuel, get_follow fuel gAllNullable = none) := by
  have hinit : get_first_init gAllNullable = some mAllNullable := by rfl
  have hpass : firstPass gAllNullable mAllNullable = none := by rfl
  have h1 : ∀ fuel, get_first fuel gEmptyRight = none := by
    intro fuel
    simp [get_first, show get_first_init gEmptyRight = none from rfl]
  have h2 : ∀ fuel, get_first fuel gAllNullable = none := by
    intro fuel
    unfold get_first
    rw [hinit]
    simpa using firstIter_none_of_pass_none gAllNullable mAllNullable hpass fuel
  refine ⟨by rfl, by rfl, h1, h2, ?_, ?_⟩
  · intro fuel
    simp [get_follow, h1 fuel]
  · intro fuel
    simp [get_follow, h2 fuel]

/-! ### C8 -/

/-- C8: the claim says the returned FOLLOW map satisfies
`FOLLOW(A) ⊆ FOLLOW(B)` for every production `A → αB` (empty β); on
`gFollowBug`, whose production `V → W` requires
`FOLLOW(V) ⊆ FOLLOW(W)`, the code terminates with `FOLLOW(V) = {#}` and
`FOLLOW(W) = ∅` because the fixpoint loop's `changed` flag is
overwritten by a later, unproductive union and the loop exits early. -/
theorem C8_follow_not_fixpoint :
    gFollowBug.validate = .ok () ∧
    (⟨"V", ["W"]⟩ : Product) ∈ gFollowBug.p ∧ "W" ∈ gFollowBug.v ∧
    (get_follow 100 gFollowBug).bind (fun m => mapGet m "V") = some ["#"] ∧
    (get_follow 100 gFollowBug).bind (fun m => mapGet m "W") = some [] := by
  exact ⟨by rfl, by decide, by decide, by rfl, by rfl⟩

/-! ### C7 -/

/-- C7 counterexample: a grammar whose `V` contains a duplicate symbol
satisfies all four conditions listed in the claim, yet `validate`
rejects it (the code's cardinality check also rejects duplicates inside
`V` alone). -/
theorem C7_counterexample :
    specValid gDup ∧ gDup.validate = .error "终结符和非终结符存在重复元素" := by
  refine ⟨?_, by rfl⟩
  unfold specValid
  refine ⟨by decide, by decide, by decide, by decide⟩

/-- Characterization of `validate` (helper shared by several proofs). -/
theorem validate_ok_iff (g : Grammar) :
    g.validate = .ok () ↔
      ((g.v ++ g.t).Nodup ∧ g.s ∈ g.v ∧ (∀ p ∈ g.p, p.left ∈ g.v) ∧
        (∀ p ∈ g.p, ∀ r ∈ p.right, r ∈ g.v ∨ r ∈ g.t)) := by
  have hiff : (g.v ++ g.t).dedup.length = g.v.length + g.t.length ↔ (g.v ++ g.t).Nodup := by
    rw [← List.length_append]
    exact dedup_length_iff _
  constructor
  · intro h
    unfold Grammar.validate at h
    by_cases h1 : (g.v ++ g.t).dedup.length ≠ g.v.length + g.t.length
    · rw [if_pos h1] at h
      exact absurd h (by simp)
    rw [if_neg h1] at h
    by_cases h2 : g.s ∉ g.v
    · rw [if_pos h2] at h
      exact absurd h (by simp)
    rw [if_neg h2] at h
    by_cases h3 : ¬ (∀ p ∈ g.p, p.left ∈ g.v)
    · rw [if_pos h3] at h
      exact absurd h (by simp)
    rw [if_neg h3] at h
    by_cases h4 : ¬ (∀ p ∈ g.p, ∀ r ∈ p.right, r ∈ g.v ∨ r ∈ g.t)
    · rw [if_pos h4] at h
      exact absurd h (by simp)
    exact ⟨hiff.mp (not_ne_iff.mp h1), not_not.mp h2, not_not.mp h3, not_not.mp h4⟩
  · rintro ⟨hn, hs, hl, hr⟩
    unfold Grammar.validate
    rw [if_neg (not_ne_iff.mpr (hiff.mpr hn)), if_neg (not_not.mpr hs),
      if_neg (not_not.mpr hl), if_neg (not_not.mpr hr)]

/-- C7 (amended): `validate` returns `Ok` exactly when `V ++ T` is
duplicate-free as a whole (disjointness *and* no duplicates within `V`
or within `T`), the start symbol is in `V`, every production left is in
`V`, and every right symbol is in `V ∪ T`. -/
theorem C7_validate_iff (g : Grammar) :
    g.validate = .ok () ↔
      ((g.v ++ g.t).Nodup ∧ g.s ∈ g.v ∧ (∀ p ∈ g.p, p.left ∈ g.v) ∧
        (∀ p ∈ g.p, ∀ r ∈ p.right, r ∈ g.v ∨ r ∈ g.t)) :=
  validate_ok_iff g

/-! ### C10 -/

/-- C10: whenever `get_slr1_table` returns normally (any fuel, any
grammar, `some` result), the result is the `Ok` variant: the declared
error outcome is unreachable. -/
theorem C10_ok_only (fuel : Nat) (g : Grammar) (r : Except String (List SMap × List SMap))
    (h : get_slr1_table fuel g = some r) : exceptIsOk r = true := by
  unfold get_slr1_table at h
  cases hf : get_follow fuel g with
  | none => rw [hf] at h; exact absurd h (by simp)
  | some follow =>
    rw [hf, Option.bind_eq_bind, Option.some_bind] at h
    simp only [] at h
    cases hl : get_lr0_collection fuel fuel (augment g) with
    | none => rw [hl] at h; exact absurd h (by simp)
    | some lr0 =>
      rw [hl, Option.bind_eq_bind, Option.some_bind] at h
      cases hfill : fillTables fuel (augment g) follow lr0
          (lr0.map (fun _ => actionInitRow (augment g)),
            lr0.map (fun _ => gotoInitRow (augment g))) with
      | none => rw [hfill] at h; exact absurd h (by simp)
      | some AG =>
        rw [hfill, Option.bind_eq_bind, Option.some_bind] at h
        cases h
        rfl

/-- C10 witness: `get_slr1_table` on `g0` returns the `Ok` tables. -/
theorem C10_witness :
    exceptIsOk (Except.ok
      ([[("a", "s2"), ("#", "")], [("a", ""), ("#", "acc")], [("a", ""), ("#", "r0")]],
        [[("S", "1")], [("S", "")], [("S", "")]])) = true :=
  C10_ok_only 100 g0
    (Except.ok
      ([[("a", "s2"), ("#", "")], [("a", ""), ("#", "acc")], [("a", ""), ("#", "r0")]],
        [[("S", "1")], [("S", "")], [("S", "")]]))
    (by rfl)

/-! ### C4 -/

/-- C4 counterexample: reducing by the ε-production `A → [ε]` from the
configuration `⟨[0, 1], [#, a], [b, #]⟩` pops one entry from each stack
(the code pops `right.len() = 1` entries), producing
`⟨[0, 3], [#, A], ...⟩`, not the zero-pop result
`⟨[0, 1, 7], [#, a, A], ...⟩` the claim predicts. -/
theorem C4_counterexample :
    slr1Step gEpsProd aEpsProd gotoEpsProd cfgEpsProd
        = .cont ⟨[0, 3], ["#", "A"], ["b", "#"]⟩ ∧
      slr1Step gEpsProd aEpsProd gotoEpsProd cfgEpsProd
        ≠ .cont ⟨cfgEpsProd.state_stack ++ [7],
            cfgEpsProd.symbol_stack ++ ["A"], cfgEpsProd.buffer⟩ := by
  exact ⟨by rfl, by decide⟩

/-- C4 (amended): a reduce action for a production whose right-hand side
is the ε-representation `[ε]` pops exactly *one* entry from the state
stack and the symbol stack (the code pops `right.len()` entries and
`[ε].len() = 1`) before pushing the left-hand side and the GOTO state
read below the popped entry. -/
theorem C4_eps_reduce_pops_one (g : Grammar) (A G : List SMap) (cfg : Config)
    (state : Nat) (token action : String) (row : SMap) (k : Nat) (p : Product)
    (s2 : Nat) (grow : SMap) (gact : String) (j : Nat)
    (h1 : cfg.state_stack.getLast? = some state)
    (h2 : cfg.buffer.head? = some token)
    (h3 : A[state]? = some row)
    (h4 : mapGet row token = some action)
    (h5 : strStartsWith action "s" = false)
    (h6 : strStartsWith action "r" = true)
    (h7 : strToNat? (strDrop action 1) = some k)
    (h8 : g.p[k]? = some p)
    (h9 : p.right = ["ε"])
    (h10 : cfg.state_stack.dropLast.getLast? = some s2)
    (h11 : G[s2]? = some grow)
    (h12 : mapGet grow p.left = some gact)
    (h13 : strToNat? gact = some j) :
    slr1Step g A G cfg =
      .cont ⟨cfg.state_stack.dropLast ++ [j],
        cfg.symbol_stack.dropLast ++ [p.left], cfg.buffer⟩ := by
  simp only [slr1Step, h1, h2, h3, h4, h5, h6, h7, h8, h9, popN,
    List.length_cons, List.length_nil, Bool.false_eq_true, if_false, if_true,
    h10, h11, h12, h13]

/-- C4 witness: the amended theorem applied to the concrete ε-reduce
configuration. -/
theorem C4_witness :
    slr1Step gEpsProd aEpsProd gotoEpsProd cfgEpsProd
      = .cont ⟨[0, 3], ["#", "A"], ["b", "#"]⟩ :=
  C4_eps_reduce_pops_one gEpsProd aEpsProd gotoEpsProd cfgEpsProd 1 "b" "r0"
    [("b", "r0")] 0 ⟨"A", ["ε"]⟩ 0 [("A", "3")] "3" 3
    rfl rfl rfl rfl rfl rfl rfl rfl rfl rfl rfl rfl rfl

/-! ### C5 -/

/-- C5 counterexample: a reduce step whose GOTO row has no entry for the
production's left-hand side panics (the source `unwrap`s the lookup)
instead of returning `false`; the full run on `gGoto` with input `a`
aborts (`none`), never producing `some false`. -/
theorem C5_counterexample :
    mapGet ([("#", "r0")] : SMap) "#" = some "r0" ∧
    mapGet ([] : SMap) "A" = none ∧
    slr1Step gGoto aGoto gGotoTbl ⟨[0, 1], ["#", "a"], ["#"]⟩ = .panic ∧
    slr1Step gGoto aGoto gGotoTbl ⟨[0, 1], ["#", "a"], ["#"]⟩ ≠ .done false ∧
    slr1_analysis 100 gGoto aGoto gGotoTbl [⟨.Operator, "a"⟩] = none := by
  exact ⟨by rfl, by rfl, by rfl, by decide, by rfl⟩

/-- C5 (amended): the driver returns `false` when the ACTION entry for
the current state and lookahead is missing or empty and when the buffer
is empty without an accept; but a missing GOTO entry consulted after a
reduction makes it panic (abort), not return `false` (witnessed
concretely by the last two conjuncts). -/
theorem C5_fail_cases :
    (∀ g A G fuel cfg state, cfg.state_stack.getLast? = some state →
       cfg.buffer = [] → slr1Loop g A G (fuel + 1) cfg = some false) ∧
    (∀ g A G fuel cfg state token row, cfg.state_stack.getLast? = some state →
       cfg.buffer.head? = some token → A[state]? = some row →
       mapGet row token = none → slr1Loop g A G (fuel + 1) cfg = some false) ∧
    (∀ g A G fuel cfg state token row, cfg.state_stack.getLast? = some state →
       cfg.buffer.head? = some token → A[state]? = some row →
       mapGet row token = some "" → slr1Loop g A G (fuel + 1) cfg = some false) ∧
    slr1Step gGoto aGoto gGotoTbl ⟨[0, 1], ["#", "a"], ["#"]⟩ = .panic ∧
    slr1_analysis 100 gGoto aGoto gGotoTbl [⟨.Operator, "a"⟩] = none := by
  refine ⟨?_, ?_, ?_, by rfl, by rfl⟩
  · intro g A G fuel cfg state h1 h2
    have hstep : slr1Step g A G cfg = .done false := by
      simp [slr1Step, h1, h2]
    simp [slr1Loop, hstep]
  · intro g A G fuel cfg state token row h1 h2 h3 h4
    have hstep : slr1Step g A G cfg = .done false := by
      simp [slr1Step, h1, h2, h3, h4]
    simp [slr1Loop, hstep]
  · intro g A G fuel cfg state token row h1 h2 h3 h4
    have hstep : slr1Step g A G cfg = .done false := by
      simp [slr1Step, h1, h2, h3, h4, strStartsWith, strToNat?, strDrop]
    simp [slr1Loop, hstep]

/-- C5 witness: the empty-ACTION-entry case on a concrete
configuration. -/
theorem C5_witness :
    slr1Loop gGoto aGoto gGotoTbl 1 ⟨[0], ["#"], ["z", "#"]⟩ = some false :=
  C5_fail_cases.2.1 gGoto aGoto gGotoTbl 0 ⟨[0], ["#"], ["z", "#"]⟩ 0 "z"
    [("a", "s1")] rfl rfl rfl rfl

/-! ### C6 counterexample -/

/-- C6 counterexample: for the validated grammar `S → ε` with
`ε ∈ T`, the ACTION table has the *shift* entry `s2` in the ε column of
state 0 (the item `S → ·ε` treats ε like any other terminal), refuting
the claim that the ε column never holds a shift. -/
theorem C6_counterexample :
    gShiftEps.validate = .ok () ∧ "ε" ∈ gShiftEps.t ∧
    (get_slr1_table 100 gShiftEps).bind
      (fun r => match r with
        | .ok (A, _) => A.head?.bind (fun row => mapGet row "ε")
        | .error _ => none) = some "s2" ∧
    strStartsWith "s2" "s" = true := by
  exact ⟨by rfl, by decide, by rfl, by rfl⟩

/-! ### Closure saturation lemmas (C9) -/

/-- `closureStep` only appends, and appends the same items to `j` and
to the queue `e`. -/
theorem closureStep_shape (a : String) (ps : List Product) :
    ∀ j e, ∃ d, closureStep a ps (j, e) = (j ++ d, e ++ d) := by
  induction ps with
  | nil => intro j e; exact ⟨[], by simp [closureStep]⟩
  | cons p ps ih =>
    intro j e
    simp only [closureStep]
    by_cases hl : p.left = a
    · rw [if_pos hl]
      by_cases hm : (⟨p.left, p.right, 0⟩ : Item) ∈ j
      · rw [if_pos hm]
        exact ih j e
      · rw [if_neg hm]
        obtain ⟨d, hd⟩ := ih (j ++ [⟨p.left, p.right, 0⟩]) (e ++ [⟨p.left, p.right, 0⟩])
        refine ⟨⟨p.left, p.right, 0⟩ :: d, ?_⟩
        rw [hd]
        simp
    · rw [if_neg hl]
      exact ih j e

/-- Every item of the `j` component after `closureStep` was already in
`j` or is the dot-0 item of a production of `a`. -/
theorem closureStep_mem (a : String) (ps : List Product) :
    ∀ j e x, x ∈ (closureStep a ps (j, e)).1 →
      x ∈ j ∨ (x.dot = 0 ∧ ∃ p ∈ ps, p.left = a ∧ x = ⟨p.left, p.right, 0⟩) := by
  induction ps with
  | nil => intro j e x hx; exact Or.inl hx
  | cons p ps ih =>
    intro j e x hx
    simp only [closureStep] at hx
    by_cases hl : p.left = a
    · rw [if_pos hl] at hx
      by_cases hm : (⟨p.left, p.right, 0⟩ : Item) ∈ j
      · rw [if_pos hm] at hx
        rcases ih j e x hx with h | ⟨hd, q, hq, hql, hqe⟩
        · exact Or.inl h
        · exact Or.inr ⟨hd, q, List.mem_cons_of_mem p hq, hql, hqe⟩
      · rw [if_neg hm] at hx
        rcases ih (j ++ [⟨p.left, p.right, 0⟩]) (e ++ [⟨p.left, p.right, 0⟩]) x hx with
          h | ⟨hd, q, hq, hql, hqe⟩
        · rcases List.mem_append.mp h with h | h
          · exact Or.inl h
          · refine Or.inr ⟨?_, p, List.mem_cons_self p ps, hl, List.mem_singleton.mp h⟩
            rw [List.mem_singleton.mp h]
        · exact Or.inr ⟨hd, q, List.mem_cons_of_mem p hq, hql, hqe⟩
    · rw [if_neg hl] at hx
      rcases ih j e x hx with h | ⟨hd, q, hq, hql, hqe⟩
      · exact Or.inl h
      · exact Or.inr ⟨hd, q, List.mem_cons_of_mem p hq, hql, hqe⟩

/-- After `closureStep`, the dot-0 item of every production of `a` in
the processed list is present in the `j` component. -/
theorem closureStep_complete (a : String) (ps : List Product) :
    ∀ j e p, p ∈ ps → p.left = a →
      (⟨p.left, p.right, 0⟩ : Item) ∈ (closureStep a ps (j, e)).1 := by
  induction ps with
  | nil => intro j e p hp; cases hp
  | cons q qs ih =>
    intro j e p hp hpl
    rcases List.mem_cons.mp hp with rfl | hp
    · simp only [closureStep, if_pos hpl]
      by_cases hm : (⟨p.left, p.right, 0⟩ : Item) ∈ j
      · rw [if_pos hm]
        obtain ⟨d, hd⟩ := closureStep_shape a qs j e
        rw [hd]
        exact List.mem_append_left d hm
      · rw [if_neg hm]
        obtain ⟨d, hd⟩ := closureStep_shape a qs (j ++ [⟨p.left, p.right, 0⟩])
          (e ++ [⟨p.left, p.right, 0⟩])
        rw [hd]
        refine List.mem_append_left d (List.mem_append_right j ?_)
        exact List.mem_singleton_self _
    · simp only [closureStep]
      by_cases hl : q.left = a
      · rw [if_pos hl]
        by_cases hm : (⟨q.left, q.right, 0⟩ : Item) ∈ j
        · rw [if_pos hm]; exact ih j e p hp hpl
        · rw [if_neg hm]; exact ih _ _ p hp hpl
      · rw [if_neg hl]; exact ih j e p hp hpl

/-- An item's expansion obligations inside a set `S`: whenever a
non-terminal `b` follows the dot, every production of `b` has its dot-0
item in `S`. -/
def SatAt (g : Grammar) (S : List Item) (it : Item) : Prop :=
  ∀ h : it.dot < it.right.length,
    it.right.get ⟨it.dot, h⟩ ∈ g.v →
      ∀ p ∈ g.p, p.left = it.right.get ⟨it.dot, h⟩ → (⟨p.left, p.right, 0⟩ : Item) ∈ S

/-- A set closed under all implied expansions (§4.3 CLOSURE). -/
def Saturated (g : Grammar) (S : List Item) : Prop := ∀ it ∈ S, SatAt g S it

theorem SatAt_mono (g : Grammar) {S S2 : List Item} (hs : ∀ x ∈ S, x ∈ S2) (it : Item)
    (h : SatAt g S it) : SatAt g S2 it := by
  intro hd hv p hp hpl
  exact hs _ (h hd hv p hp hpl)

/-- The closure worklist only appends to `j`. -/
theorem closureLoop_superset (g : Grammar) :
    ∀ n j e jout, closureLoop g n j e = some jout → ∀ x ∈ j, x ∈ jout := by
  intro n
  induction n with
  | zero =>
    intro j e jout h
    cases e with
    | nil => cases h; exact fun x hx => hx
    | cons a as => cases h
  | succ n ih =>
    intro j e jout h
    cases e with
    | nil => cases h; exact fun x hx => hx
    | cons item rest =>
      simp only [closureLoop] at h
      by_cases hd : item.dot < item.right.length
      · rw [dif_pos hd] at h
        by_cases hv : item.right.get ⟨item.dot, hd⟩ ∈ g.v
        · rw [if_pos hv] at h
          obtain ⟨d, hstep⟩ := closureStep_shape (item.right.get ⟨item.dot, hd⟩) g.p j rest
          rw [hstep] at h
          intro x hx
          exact ih _ _ jout h x (List.mem_append_left d hx)
        · rw [if_neg hv] at h
          exact ih _ _ jout h
      · rw [dif_neg hd] at h
        exact ih _ _ jout h

/-- Worklist invariant: if every item of `j` is queued or already
expanded inside `j`, the final closure is saturated. -/
theorem closureLoop_saturated (g : Grammar) :
    ∀ n j e jout, closureLoop g n j e = some jout →
      (∀ it ∈ j, it ∈ e ∨ SatAt g j it) → Saturated g jout := by
  intro n
  induction n with
  | zero =>
    intro j e jout h hinv
    cases e with
    | nil =>
      cases h
      intro it hit
      rcases hinv it hit with h | h
      · cases h
      · exact h
    | cons a as => cases h
  | succ n ih =>
    intro j e jout h hinv
    cases e with
    | nil =>
      cases h
      intro it hit
      rcases hinv it hit with h | h
      · cases h
      · exact h
    | cons item rest =>
      simp only [closureLoop] at h
      by_cases hd : item.dot < item.right.length
      · rw [dif_pos hd] at h
        by_cases hv : item.right.get ⟨item.dot, hd⟩ ∈ g.v
        · rw [if_pos hv] at h
          obtain ⟨d, hstep⟩ := closureStep_shape (item.right.get ⟨item.dot, hd⟩) g.p j rest
          rw [hstep] at h
          refine ih _ _ jout h ?_
          intro it hit
          rcases List.mem_append.mp hit with hj | hnew
          · rcases hinv it hj with hq | hsat
            · rcases List.mem_cons.mp hq with rfl | hrest
              · refine Or.inr ?_
                intro hd2 hv2 p hp hpl
                have hc := closureStep_complete (it.right.get ⟨it.dot, hd⟩) g.p j rest p hp hpl
                rw [hstep] at hc
                exact hc
              · exact Or.inl (List.mem_append_left d hrest)
            · exact Or.inr (SatAt_mono g (fun x hx => List.mem_append_left d hx) it hsat)
          · exact Or.inl (List.mem_append_right rest hnew)
        · rw [if_neg hv] at h
          refine ih _ _ jout h ?_
          intro it hit
          rcases hinv it hit with hq | hsat
          · rcases List.mem_cons.mp hq with rfl | hrest
            · refine Or.inr ?_
              intro hd2 hv2 p hp hpl
              exact absurd hv2 hv
            · exact Or.inl hrest
          · exact Or.inr hsat
      · rw [dif_neg hd] at h
        refine ih _ _ jout h ?_
        intro it hit
        rcases hinv it hit with hq | hsat
        · rcases List.mem_cons.mp hq with rfl | hrest
          · exact Or.inr (fun hd2 => absurd hd2 hd)
          · exact Or.inl hrest
        · exact Or.inr hsat

/-- Running the worklist inside a saturated superset `T` never leaves
`T`. -/
theorem closureLoop_subset_closed (g : Grammar) (T : List Item) (hT : Saturated g T) :
    ∀ n j e jout, closureLoop g n j e = some jout →
      (∀ x ∈ j, x ∈ T) → (∀ x ∈ e, x ∈ T) → ∀ x ∈ jout, x ∈ T := by
  intro n
  induction n with
  | zero =>
    intro j e jout h hj he
    cases e with
    | nil => cases h; exact hj
    | cons a as => cases h
  | succ n ih =>
    intro j e jout h hj he
    cases e with
    | nil => cases h; exact hj
    | cons item rest =>
      simp only [closureLoop] at h
      by_cases hd : item.dot < item.right.length
      · rw [dif_pos hd] at h
        by_cases hv : item.right.get ⟨item.dot, hd⟩ ∈ g.v
        · rw [if_pos hv] at h
          have hstep1 : ∀ x ∈ (closureStep (item.right.get ⟨item.dot, hd⟩) g.p (j, rest)).1,
              x ∈ T := by
            intro x hx
            rcases closureStep_mem (item.right.get ⟨item.dot, hd⟩) g.p j rest x hx with
              hxj | ⟨-, p, hp, hpl, rfl⟩
            · exact hj x hxj
            · exact hT item (he item (List.mem_cons_self item rest)) hd hv p hp hpl
          obtain ⟨d, hstep⟩ := closureStep_shape (item.right.get ⟨item.dot, hd⟩) g.p j rest
          rw [hstep] at h
          refine ih _ _ jout h ?_ ?_
          · intro x hx
            refine hstep1 x ?_
            rw [hstep]
            exact hx
          · intro x hx
            rcases List.mem_append.mp hx with hr | hdnew
            · exact he x (List.mem_cons_of_mem item hr)
            · refine hstep1 x ?_
              rw [hstep]
              exact List.mem_append_right j hdnew
        · rw [if_neg hv] at h
          exact ih _ _ jout h hj (fun x hx => he x (List.mem_cons_of_mem item hx))
      · rw [dif_neg hd] at h
        exact ih _ _ jout h hj (fun x hx => he x (List.mem_cons_of_mem item hx))

/-- The result of `closure` is saturated. -/
theorem closure_saturated (g : Grammar) (n : Nat) (I J : List Item)
    (h : closure n I g = some J) : Saturated g J :=
  closureLoop_saturated g n I I J h (fun _ hit => Or.inl hit)

/-- `closure` contains its input. -/
theorem closure_superset (g : Grammar) (n : Nat) (I J : List Item)
    (h : closure n I g = some J) : ∀ x ∈ I, x ∈ J :=
  closureLoop_superset g n I I J h

/-! ### C9 -/

/-- C9: `closure` is idempotent up to set equality — whenever both runs
terminate, re-closing a closure returns exactly the same item set
(here even the same list, but stated as the claim does, as mutual
membership). -/
theorem C9_closure_idempotent (g : Grammar) (n m : Nat) (I J J2 : List Item)
    (h1 : closure n I g = some J) (h2 : closure m J g = some J2) :
    ∀ it : Item, it ∈ J2 ↔ it ∈ J := by
  intro it
  constructor
  · intro hit
    exact closureLoop_subset_closed g J (closure_saturated g n I J h1) m J J J2 h2
      (fun x hx => hx) (fun x hx => hx) it hit
  · intro hit
    exact closure_superset g m J J2 h2 it hit

/-- C9 witness: closing the already-closed start state of the augmented
`g0` again. -/
theorem C9_witness :
    (⟨"S", ["a"], 0⟩ : Item) ∈ ([⟨"S\x27", ["S"], 0⟩, ⟨"S", ["a"], 0⟩] : List Item) :=
  (C9_closure_idempotent (augment g0) 20 20 [⟨"S\x27", ["S"], 0⟩]
    [⟨"S\x27", ["S"], 0⟩, ⟨"S", ["a"], 0⟩] [⟨"S\x27", ["S"], 0⟩, ⟨"S", ["a"], 0⟩]
    (by rfl) (by rfl) ⟨"S", ["a"], 0⟩).mpr (by decide)

/-! ### Association-list lemmas -/

theorem mapGet_mem {α : Type} :
    ∀ (m : List (String × α)) (k : String) (v : α), mapGet m k = some v → (k, v) ∈ m := by
  intro m
  induction m with
  | nil => intro k v h; cases h
  | cons kv rest ih =>
    intro k v h
    obtain ⟨k1, v1⟩ := kv
    simp only [mapGet] at h
    by_cases he : k1 = k
    · rw [if_pos he] at h
      cases h
      rw [he]
      exact List.mem_cons_self _ _
    · rw [if_neg he] at h
      exact List.mem_cons_of_mem _ (ih k v h)

theorem mapInsert_mem {α : Type} :
    ∀ (m : List (String × α)) (k : String) (v : α) (x : String × α),
      x ∈ mapInsert m k v → x ∈ m ∨ x = (k, v) := by
  intro m
  induction m with
  | nil =>
    intro k v x h
    simp only [mapInsert, List.mem_singleton] at h
    exact Or.inr h
  | cons kv rest ih =>
    intro k v x h
    obtain ⟨k1, v1⟩ := kv
    simp only [mapInsert] at h
    by_cases he : k1 = k
    · rw [if_pos he] at h
      rcases List.mem_cons.mp h with rfl | hm
      · exact Or.inr rfl
      · exact Or.inl (List.mem_cons_of_mem _ hm)
    · rw [if_neg he] at h
      rcases List.mem_cons.mp h with rfl | hm
      · exact Or.inl (List.mem_cons_self _ _)
      · rcases ih k v x hm with hm2 | hm2
        · exact Or.inl (List.mem_cons_of_mem _ hm2)
        · exact Or.inr hm2

theorem mapGet_insert_self {α : Type} :
    ∀ (m : List (String × α)) (k : String) (v : α), mapGet (mapInsert m k v) k = some v := by
  intro m
  induction m with
  | nil => intro k v; simp [mapInsert, mapGet]
  | cons kv rest ih =>
    intro k v
    obtain ⟨k1, v1⟩ := kv
    simp only [mapInsert]
    by_cases he : k1 = k
    · rw [if_pos he]
      simp [mapGet]
    · rw [if_neg he]
      simp only [mapGet, if_neg he]
      exact ih k v

theorem mapGet_insert_ne {α : Type} :
    ∀ (m : List (String × α)) (k : String) (v : α) (k2 : String), k ≠ k2 →
      mapGet (mapInsert m k v) k2 = mapGet m k2 := by
  intro m
  induction m with
  | nil => intro k v k2 hne; simp [mapInsert, mapGet, hne]
  | cons kv rest ih =>
    intro k v k2 hne
    obtain ⟨k1, v1⟩ := kv
    simp only [mapInsert]
    by_cases he : k1 = k
    · rw [if_pos he]
      simp only [mapGet, if_neg hne, if_neg (he ▸ hne : k1 ≠ k2)]
    · rw [if_neg he]
      simp only [mapGet]
      by_cases h2 : k1 = k2
      · rw [if_pos h2, if_pos h2]
      · rw [if_neg h2, if_neg h2]
        exact ih k v k2 hne

/-! ### gotoAdv lemmas -/

theorem gotoAdv_shape (g : Grammar) (x : String) :
    ∀ (items acc : List Item), ∃ d, gotoAdv g x items acc = acc ++ d := by
  intro items
  induction items with
  | nil => intro acc; exact ⟨[], by simp [gotoAdv]⟩
  | cons item items ih =>
    intro acc
    simp only [gotoAdv]
    by_cases hd : item.dot < item.right.length
    · rw [dif_pos hd]
      by_cases hc : item.right.get ⟨item.dot, hd⟩ = x ∧
          (item.right.get ⟨item.dot, hd⟩ ∈ g.v ∨ item.right.get ⟨item.dot, hd⟩ ∈ g.t)
      · rw [if_pos hc]
        obtain ⟨d, hdq⟩ := ih (acc ++ [⟨item.left, item.right, item.dot + 1⟩])
        exact ⟨⟨item.left, item.right, item.dot + 1⟩ :: d, by rw [hdq]; simp⟩
      · rw [if_neg hc]
        exact ih acc
    · rw [dif_neg hd]
      exact ih acc

theorem gotoAdv_mem (g : Grammar) (x : String) :
    ∀ (items acc : List Item) (y : Item), y ∈ gotoAdv g x items acc →
      y ∈ acc ∨ ∃ z ∈ items, ∃ hz : z.dot < z.right.length,
        z.right.get ⟨z.dot, hz⟩ = x ∧ y = ⟨z.left, z.right, z.dot + 1⟩ := by
  intro items
  induction items with
  | nil => intro acc y h; exact Or.inl h
  | cons item items ih =>
    intro acc y h
    simp only [gotoAdv] at h
    by_cases hd : item.dot < item.right.length
    · rw [dif_pos hd] at h
      by_cases hc : item.right.get ⟨item.dot, hd⟩ = x ∧
          (item.right.get ⟨item.dot, hd⟩ ∈ g.v ∨ item.right.get ⟨item.dot, hd⟩ ∈ g.t)
      · rw [if_pos hc] at h
        rcases ih _ y h with hacc | ⟨z, hz, hzd, hzx, hy⟩
        · rcases List.mem_append.mp hacc with h2 | h2
          · exact Or.inl h2
          · exact Or.inr ⟨item, List.mem_cons_self _ _, hd, hc.1, List.mem_singleton.mp h2⟩
        · exact Or.inr ⟨z, List.mem_cons_of_mem _ hz, hzd, hzx, hy⟩
      · rw [if_neg hc] at h
        rcases ih _ y h with hacc | ⟨z, hz, hzd, hzx, hy⟩
        · exact Or.inl hacc
        · exact Or.inr ⟨z, List.mem_cons_of_mem _ hz, hzd, hzx, hy⟩
    · rw [dif_neg hd] at h
      rcases ih _ y h with hacc | ⟨z, hz, hzd, hzx, hy⟩
      · exact Or.inl hacc
      · exact Or.inr ⟨z, List.mem_cons_of_mem _ hz, hzd, hzx, hy⟩

theorem gotoAdv_complete (g : Grammar) (x : String) :
    ∀ (items acc : List Item) (z : Item), z ∈ items →
      ∀ hz : z.dot < z.right.length, z.right.get ⟨z.dot, hz⟩ = x →
        (z.right.get ⟨z.dot, hz⟩ ∈ g.v ∨ z.right.get ⟨z.dot, hz⟩ ∈ g.t) →
        (⟨z.left, z.right, z.dot + 1⟩ : Item) ∈ gotoAdv g x items acc := by
  intro items
  induction items with
  | nil => intro acc z hz; cases hz
  | cons item items ih =>
    intro acc z hmem hz hx hvt
    rcases List.mem_cons.mp hmem with rfl | hmem
    · simp only [gotoAdv, dif_pos hz]
      rw [if_pos (And.intro hx hvt)]
      obtain ⟨d, hdq⟩ := gotoAdv_shape g x items (acc ++ [⟨z.left, z.right, z.dot + 1⟩])
      rw [hdq]
      exact List.mem_append_left d (List.mem_append_right acc (List.mem_singleton_self _))
    · simp only [gotoAdv]
      by_cases hd : item.dot < item.right.length
      · rw [dif_pos hd]
        by_cases hc : item.right.get ⟨item.dot, hd⟩ = x ∧
            (item.right.get ⟨item.dot, hd⟩ ∈ g.v ∨ item.right.get ⟨item.dot, hd⟩ ∈ g.t)
        · rw [if_pos hc]; exact ih _ z hmem hz hx hvt
        · rw [if_neg hc]; exact ih _ z hmem hz hx hvt
      · rw [dif_neg hd]; exact ih _ z hmem hz hx hvt

/-! ### Item well-formedness -/

/-- An item made from a production of `g`, with an in-range dot. -/
def ItemWf (g : Grammar) (it : Item) : Prop :=
  ∃ p ∈ g.p, it.left = p.left ∧ it.right = p.right ∧ it.dot ≤ p.right.length

theorem closureLoop_wf (g : Grammar) :
    ∀ n j e jout, closureLoop g n j e = some jout →
      (∀ x ∈ j, ItemWf g x) → ∀ x ∈ jout, ItemWf g x := by
  intro n
  induction n with
  | zero =>
    intro j e jout h hj
    cases e with
    | nil => cases h; exact hj
    | cons a as => cases h
  | succ n ih =>
    intro j e jout h hj
    cases e with
    | nil => cases h; exact hj
    | cons item rest =>
      simp only [closureLoop] at h
      by_cases hd : item.dot < item.right.length
      · rw [dif_pos hd] at h
        by_cases hv : item.right.get ⟨item.dot, hd⟩ ∈ g.v
        · rw [if_pos hv] at h
          refine ih _ _ jout h ?_
          intro y hy
          rcases closureStep_mem (item.right.get ⟨item.dot, hd⟩) g.p j rest y hy with
            hyj | ⟨hd0, p, hp, -, rfl⟩
          · exact hj y hyj
          · exact ⟨p, hp, rfl, rfl, Nat.zero_le _⟩
        · rw [if_neg hv] at h
          exact ih _ _ jout h hj
      · rw [dif_neg hd] at h
        exact ih _ _ jout h hj

theorem closure_wf (g : Grammar) (n : Nat) (I J : List Item)
    (h : closure n I g = some J) (hI : ∀ x ∈ I, ItemWf g x) : ∀ x ∈ J, ItemWf g x :=
  closureLoop_wf g n I I J h hI

theorem goto_wf (g : Grammar) (n : Nat) (I : List Item) (x : String) (J : List Item)
    (h : goto n I x g = some J) (hI : ∀ y ∈ I, ItemWf g y) : ∀ y ∈ J, ItemWf g y := by
  refine closure_wf g n _ J h ?_
  intro y hy
  rcases gotoAdv_mem g x I [] y hy with hacc | ⟨z, hz, hzd, -, rfl⟩
  · cases hacc
  · obtain ⟨p, hp, hl, hr, -⟩ := hI z hz
    refine ⟨p, hp, hl, hr, ?_⟩
    have : z.dot + 1 ≤ z.right.length := hzd
    rw [← hr]
    exact this

/-! ### Closure member provenance with triggers -/

theorem closureLoop_mem_src (g : Grammar) :
    ∀ n j e jout, closureLoop g n j e = some jout → (∀ x ∈ e, x ∈ j) →
      ∀ x ∈ jout, x ∈ j ∨ (x.dot = 0 ∧ ∃ p ∈ g.p, x = ⟨p.left, p.right, 0⟩ ∧
        ∃ tr ∈ jout, ∃ htr : tr.dot < tr.right.length,
          tr.right.get ⟨tr.dot, htr⟩ = p.left) := by
  intro n
  induction n with
  | zero =>
    intro j e jout h he
    cases e with
    | nil => cases h; exact fun x hx => Or.inl hx
    | cons a as => cases h
  | succ n ih =>
    intro j e jout h he
    cases e with
    | nil => cases h; exact fun x hx => Or.inl hx
    | cons item rest =>
      have hitem : item ∈ j := he item (List.mem_cons_self _ _)
      simp only [closureLoop] at h
      by_cases hd : item.dot < item.right.length
      · rw [dif_pos hd] at h
        by_cases hv : item.right.get ⟨item.dot, hd⟩ ∈ g.v
        · rw [if_pos hv] at h
          obtain ⟨d, hstep⟩ := closureStep_shape (item.right.get ⟨item.dot, hd⟩) g.p j rest
          rw [hstep] at h
          have hjout_sup : ∀ y ∈ j ++ d, y ∈ jout := closureLoop_superset g n _ _ jout h
          have hpre : ∀ y ∈ rest ++ d, y ∈ j ++ d := by
            intro y hy
            rcases List.mem_append.mp hy with hr | hnew
            · exact List.mem_append_left d (he y (List.mem_cons_of_mem _ hr))
            · exact List.mem_append_right j hnew
          intro x hx
          rcases ih _ _ jout h hpre x hx with hj2 | hsrc
          · rcases List.mem_append.mp hj2 with hj | hnew
            · exact Or.inl hj
            · -- `x` was added by this closureStep: a dot-0 item of a production
              -- of the symbol after `item`'s dot, with `item ∈ jout` as trigger.
              have hx2 : x ∈ (closureStep (item.right.get ⟨item.dot, hd⟩) g.p (j, rest)).1 := by
                rw [hstep]
                exact List.mem_append_right j hnew
              rcases closureStep_mem _ g.p j rest x hx2 with hxj | ⟨h0, p, hp, hpl, rfl⟩
              · exact Or.inl hxj
              · refine Or.inr ⟨h0, p, hp, rfl, item, ?_, hd, hpl.symm⟩
                exact hjout_sup item (List.mem_append_left d hitem)
          · exact Or.inr hsrc
        · rw [if_neg hv] at h
          intro x hx
          rcases ih _ _ jout h (fun y hy => he y (List.mem_cons_of_mem _ hy)) x hx with
            hj | hsrc
          · exact Or.inl hj
          · exact Or.inr hsrc
      · rw [dif_neg hd] at h
        intro x hx
        rcases ih _ _ jout h (fun y hy => he y (List.mem_cons_of_mem _ hy)) x hx with
          hj | hsrc
        · exact Or.inl hj
        · exact Or.inr hsrc

theorem closure_mem_src (g : Grammar) (n : Nat) (I J : List Item)
    (h : closure n I g = some J) :
    ∀ x ∈ J, x ∈ I ∨ (x.dot = 0 ∧ ∃ p ∈ g.p, x = ⟨p.left, p.right, 0⟩ ∧
      ∃ tr ∈ J, ∃ htr : tr.dot < tr.right.length,
        tr.right.get ⟨tr.dot, htr⟩ = p.left) :=
  closureLoop_mem_src g n I I J h (fun _ hx => hx)

theorem goto_mem_src (g : Grammar) (n : Nat) (I : List Item) (x : String) (J : List Item)
    (h : goto n I x g = some J) :
    ∀ y ∈ J, (∃ z ∈ I, ∃ hz : z.dot < z.right.length,
        z.right.get ⟨z.dot, hz⟩ = x ∧ y = ⟨z.left, z.right, z.dot + 1⟩) ∨
      (y.dot = 0 ∧ ∃ p ∈ g.p, y = ⟨p.left, p.right, 0⟩ ∧
        ∃ tr ∈ J, ∃ htr : tr.dot < tr.right.length,
          tr.right.get ⟨tr.dot, htr⟩ = p.left) := by
  intro y hy
  rcases closure_mem_src g n _ J h y hy with hadv | hsrc
  · rcases gotoAdv_mem g x I [] y hadv with hacc | ⟨z, hz, hzd, hzx, hye⟩
    · cases hacc
    · exact Or.inl ⟨z, hz, hzd, hzx, hye⟩
  · exact Or.inr hsrc

theorem goto_complete_adv (g : Grammar) (n : Nat) (I : List Item) (x : String)
    (J : List Item) (h : goto n I x g = some J) (z : Item) (hz : z ∈ I)
    (hd : z.dot < z.right.length) (hx : z.right.get ⟨z.dot, hd⟩ = x)
    (hvt : z.right.get ⟨z.dot, hd⟩ ∈ g.v ∨ z.right.get ⟨z.dot, hd⟩ ∈ g.t) :
    (⟨z.left, z.right, z.dot + 1⟩ : Item) ∈ J :=
  closure_superset g n _ J h _ (gotoAdv_complete g x I [] z hz hd hx hvt)

/-! ### LR(0) worklist lemmas -/

theorem lr0Fold_spec (cfuel : Nat) (g : Grammar) (items : List Item) :
    ∀ (xs : List String) (c e c2 e2 : List (List Item)),
      List.foldlM (lr0Step cfuel g items) (c, e) xs = some (c2, e2) →
      ∃ d, c2 = c ++ d ∧ e2 = e ++ d ∧
        (∀ J ∈ d, ∃ x ∈ xs, goto cfuel items x g = some J ∧ 0 < J.length) ∧
        (∀ x ∈ xs, ∃ J, goto cfuel items x g = some J ∧ (0 < J.length → J ∈ c2)) ∧
        (c.Nodup → c2.Nodup) := by
  intro xs
  induction xs with
  | nil =>
    intro c e c2 e2 h
    rw [List.foldlM_nil] at h
    cases h
    exact ⟨[], by simp, by simp, by simp, by simp, fun hh => hh⟩
  | cons x xs ih =>
    intro c e c2 e2 h
    rw [List.foldlM_cons] at h
    unfold lr0Step at h
    cases hg : goto cfuel items x g with
    | none =>
      rw [hg] at h
      simp at h
    | some J =>
      rw [hg] at h
      simp only [Option.bind_eq_bind, Option.some_bind] at h
      by_cases hlen : J.length > 0
      · rw [if_pos hlen] at h
        by_cases hmem : J ∈ c
        · rw [if_pos hmem] at h
          simp only [Option.some_bind] at h
          obtain ⟨d, hc2, he2, hd, hall, hnd⟩ := ih c e c2 e2 h
          refine ⟨d, hc2, he2, ?_, ?_, hnd⟩
          · intro K hK
            obtain ⟨y, hy, hgy, hKlen⟩ := hd K hK
            exact ⟨y, List.mem_cons_of_mem x hy, hgy, hKlen⟩
          · intro y hy
            rcases List.mem_cons.mp hy with rfl | hy2
            · exact ⟨J, hg, fun _ => hc2 ▸ List.mem_append_left d hmem⟩
            · exact hall y hy2
        · rw [if_neg hmem] at h
          simp only [Option.some_bind] at h
          obtain ⟨d, hc2, he2, hd, hall, hnd⟩ := ih (c ++ [J]) (e ++ [J]) c2 e2 h
          refine ⟨J :: d, by rw [hc2]; simp, by rw [he2]; simp, ?_, ?_, ?_⟩
          · intro K hK
            rcases List.mem_cons.mp hK with rfl | hK2
            · exact ⟨x, List.mem_cons_self x xs, hg, hlen⟩
            · obtain ⟨y, hy, hgy, hKlen⟩ := hd K hK2
              exact ⟨y, List.mem_cons_of_mem x hy, hgy, hKlen⟩
          · intro y hy
            rcases List.mem_cons.mp hy with rfl | hy2
            · refine ⟨J, hg, fun _ => ?_⟩
              rw [hc2]
              exact List.mem_append_left d (List.mem_append_right c (List.mem_singleton_self J))
            · exact hall y hy2
          · intro hnc
            refine hnd (List.Nodup.append hnc (List.nodup_singleton J) ?_)
            intro a ha hb
            rw [List.mem_singleton.mp hb] at ha
            exact hmem ha
      · rw [if_neg hlen] at h
        simp only [Option.some_bind] at h
        obtain ⟨d, hc2, he2, hd, hall, hnd⟩ := ih c e c2 e2 h
        refine ⟨d, hc2, he2, ?_, ?_, hnd⟩
        · intro K hK
          obtain ⟨y, hy, hgy, hKlen⟩ := hd K hK
          exact ⟨y, List.mem_cons_of_mem x hy, hgy, hKlen⟩
        · intro y hy
          rcases List.mem_cons.mp hy with rfl | hy2
          · exact ⟨J, hg, fun hcontra => absurd hcontra hlen⟩
          · exact hall y hy2

/-- The LR(0) worklist only appends states. -/
theorem lr0Loop_shape (cfuel : Nat) (g : Grammar) :
    ∀ n c e cout, lr0Loop cfuel g n c e = some cout → ∃ d, cout = c ++ d := by
  intro n
  induction n with
  | zero =>
    intro c e cout h
    cases e with
    | nil => cases h; exact ⟨[], by simp⟩
    | cons a as => cases h
  | succ n ih =>
    intro c e cout h
    cases e with
    | nil => cases h; exact ⟨[], by simp⟩
    | cons items rest =>
      simp only [lr0Loop] at h
      cases hfold : List.foldlM (lr0Step cfuel g items) (c, rest) (g.v ++ g.t) with
      | none => rw [hfold] at h; simp at h
      | some ce2 =>
        rw [hfold] at h
        simp only [Option.bind_eq_bind, Option.some_bind] at h
        obtain ⟨c2, e2⟩ := ce2
        obtain ⟨d, hc2, -, -, -, -⟩ := lr0Fold_spec cfuel g items (g.v ++ g.t) c rest c2 e2 hfold
        obtain ⟨d2, hd2⟩ := ih c2 e2 cout h
        exact ⟨d ++ d2, by rw [hd2, hc2, List.append_assoc]⟩

/-- Preservation of a state property along the LR(0) worklist: if `P`
holds of every initial state and is preserved by `goto`, it holds of
every state of the final collection. -/
theorem lr0Loop_pres (cfuel : Nat) (g : Grammar) (P : List Item → Prop)
    (hstep : ∀ I x J, P I → goto cfuel I x g = some J → P J) :
    ∀ n c e cout, lr0Loop cfuel g n c e = some cout →
      (∀ st ∈ c, P st) → (∀ st ∈ e, P st) → ∀ st ∈ cout, P st := by
  intro n
  induction n with
  | zero =>
    intro c e cout h hc he
    cases e with
    | nil => cases h; exact hc
    | cons a as => cases h
  | succ n ih =>
    intro c e cout h hc he
    cases e with
    | nil => cases h; exact hc
    | cons items rest =>
      simp only [lr0Loop] at h
      cases hfold : List.foldlM (lr0Step cfuel g items) (c, rest) (g.v ++ g.t) with
      | none => rw [hfold] at h; simp at h
      | some ce2 =>
        rw [hfold] at h
        simp only [Option.bind_eq_bind, Option.some_bind] at h
        obtain ⟨c2, e2⟩ := ce2
        obtain ⟨d, hc2, he2, hd, -, -⟩ :=
          lr0Fold_spec cfuel g items (g.v ++ g.t) c rest c2 e2 hfold
        have hdP : ∀ K ∈ d, P K := by
          intro K hK
          obtain ⟨y, -, hgy, -⟩ := hd K hK
          exact hstep items y K (he items (List.mem_cons_self _ _)) hgy
        refine ih c2 e2 cout h ?_ ?_
        · intro st hst
          rw [hc2] at hst
          rcases List.mem_append.mp hst with hst | hst
          · exact hc st hst
          · exact hdP st hst
        · intro st hst
          rw [he2] at hst
          rcases List.mem_append.mp hst with hst | hst
          · exact he st (List.mem_cons_of_mem _ hst)
          · exact hdP st hst

/-! ### FOLLOW sets never contain ε -/

/-- No value of the map contains ε. -/
def NoEps (m : FMap) : Prop := ∀ kv ∈ m, "ε" ∉ kv.2

theorem NoEps_insert {m : FMap} (h : NoEps m) {k : String} {v : List String}
    (hv : "ε" ∉ v) : NoEps (mapInsert m k v) := by
  intro kv hkv
  rcases mapInsert_mem m k v kv hkv with hm | rfl
  · exact h kv hm
  · exact hv

theorem NoEps_get {m : FMap} (h : NoEps m) {k : String} {v : List String}
    (hg : mapGet m k = some v) : "ε" ∉ v :=
  h (k, v) (mapGet_mem m k v hg)

theorem union_follow_noEps {m m2 : FMap} {x y : String} {b : Bool}
    (h : union_follow m x y = some (m2, b)) (hm : NoEps m) (hy : y ≠ "ε") : NoEps m2 := by
  unfold union_follow at h
  cases hx : mapGet m x with
  | none => rw [hx] at h; simp at h
  | some xf =>
    rw [hx] at h
    simp only [Option.bind_eq_bind, Option.some_bind] at h
    rw [if_neg hy] at h
    cases hyv : mapGet m y with
    | none => rw [hyv] at h; simp at h
    | some yf =>
      rw [hyv] at h
      simp only [Option.some_bind] at h
      cases h
      refine NoEps_insert hm ?_
      intro hdm
      rcases List.mem_append.mp (List.mem_dedup.mp hdm) with h1 | h1
      · exact NoEps_get hm hx h1
      · exact NoEps_get hm hyv h1

theorem pushVal_noEps {m m2 : FMap} {k x : String} (h : pushVal m k x = some m2)
    (hm : NoEps m) (hx : x ≠ "ε") : NoEps m2 := by
  unfold pushVal at h
  cases hg : mapGet m k with
  | none => rw [hg] at h; cases h
  | some xs =>
    rw [hg] at h
    cases h
    refine NoEps_insert hm ?_
    intro hc
    rcases List.mem_append.mp hc with h1 | h1
    · exact NoEps_get hm hg h1
    · exact hx (List.mem_singleton.mp h1).symm

theorem followInner_noEps (g : Grammar) (p : Product) (hpl : p.left ≠ "ε") :
    ∀ (l : List String) (fm fol : FMap) (ch : Bool) (st2 : FMap × FMap × Bool),
      followInner g p fm fol ch l = some st2 → NoEps fol → NoEps st2.2.1 := by
  intro l
  induction l with
  | nil =>
    intro fm fol ch st2 h hno
    cases h
    exact hno
  | cons bi rest ih =>
    intro fm fol ch st2 h hno
    simp only [followInner] at h
    by_cases hbv : bi ∉ g.v
    · rw [if_pos hbv] at h
      exact ih fm fol ch st2 h hno
    rw [if_neg hbv] at h
    by_cases hrest : rest = []
    · rw [if_pos hrest] at h
      cases hu : union_follow fol bi p.left with
      | none => rw [hu] at h; simp at h
      | some pr =>
        rw [hu] at h
        simp only [Option.bind_eq_bind, Option.some_bind] at h
        obtain ⟨fol3, ch3⟩ := pr
        exact ih fm fol3 ch3 st2 h (union_follow_noEps hu hno hpl)
    · rw [if_neg hrest] at h
      cases hgfa : get_first_all fm rest with
      | none => rw [hgfa] at h; simp at h
      | some pr =>
        rw [hgfa] at h
        simp only [Option.bind_eq_bind, Option.some_bind] at h
        obtain ⟨fm3, betaFirst⟩ := pr
        by_cases hbeps : betaFirst.contains "ε" = true
        · rw [if_pos hbeps] at h
          cases hu : union_follow fol bi p.left with
          | none => rw [hu] at h; simp at h
          | some pr2 =>
            rw [hu] at h
            simp only [Option.some_bind] at h
            obtain ⟨fol3, ch3⟩ := pr2
            have hno3 : NoEps fol3 := union_follow_noEps hu hno hpl
            cases hbf : mapGet fol3 bi with
            | none => rw [hbf] at h; simp at h
            | some bf =>
              rw [hbf] at h
              simp only [Option.some_bind] at h
              refine ih _ _ _ st2 h ?_
              refine NoEps_insert hno3 ?_
              intro hc
              rcases List.mem_append.mp (List.mem_dedup.mp hc) with h1 | h1
              · exact NoEps_get hno3 hbf h1
              · have := (List.mem_filter.mp h1).2
                simp at this
        · rw [if_neg hbeps] at h
          simp only [Option.some_bind] at h
          cases hbf : mapGet fol bi with
          | none => rw [hbf] at h; simp at h
          | some bf =>
            rw [hbf] at h
            simp only [Option.some_bind] at h
            refine ih _ _ _ st2 h ?_
            refine NoEps_insert hno ?_
            intro hc
            rcases List.mem_append.mp (List.mem_dedup.mp hc) with h1 | h1
            · exact NoEps_get hno hbf h1
            · have := (List.mem_filter.mp h1).2
              simp at this

theorem followFold_noEps (g : Grammar) :
    ∀ (ps : List Product), (∀ p ∈ ps, p.left ≠ "ε") →
      ∀ (st st2 : FMap × FMap × Bool),
        List.foldlM (fun (st : FMap × FMap × Bool) p =>
          followInner g p st.1 st.2.1 st.2.2 p.right) st ps = some st2 →
        NoEps st.2.1 → NoEps st2.2.1 := by
  intro ps
  induction ps with
  | nil =>
    intro hps st st2 h hno
    rw [List.foldlM_nil] at h
    cases h
    exact hno
  | cons p ps ih =>
    intro hps st st2 h hno
    rw [List.foldlM_cons] at h
    cases hstep : followInner g p st.1 st.2.1 st.2.2 p.right with
    | none => rw [hstep] at h; simp at h
    | some st3 =>
      rw [hstep] at h
      simp only [Option.bind_eq_bind, Option.some_bind] at h
      refine ih (fun q hq => hps q (List.mem_cons_of_mem p hq)) st3 st2 h ?_
      exact followInner_noEps g p (hps p (List.mem_cons_self p ps)) p.right
        st.1 st.2.1 st.2.2 st3 hstep hno

theorem followIter_noEps (g : Grammar) (hps : ∀ p ∈ g.p, p.left ≠ "ε") :
    ∀ (n : Nat) (fm fol fol2 : FMap), followIter g n fm fol = some fol2 →
      NoEps fol → NoEps fol2 := by
  intro n
  induction n with
  | zero => intro fm fol fol2 h; cases h
  | succ n ih =>
    intro fm fol fol2 h hno
    simp only [followIter] at h
    cases hp : followPass g fm fol with
    | none => rw [hp] at h; simp at h
    | some st3 =>
      rw [hp] at h
      simp only [Option.bind_eq_bind, Option.some_bind] at h
      obtain ⟨fm3, fol3, ch3⟩ := st3
      have hno3 : NoEps fol3 :=
        followFold_noEps g g.p hps (fm, fol, false) (fm3, fol3, ch3) hp hno
      by_cases hch : ch3 = true
      · rw [if_pos hch] at h
        exact ih fm3 fol3 fol2 h hno3
      · rw [if_neg hch] at h
        cases h
        exact hno3

theorem foldInsertNil_noEps :
    ∀ (vs : List String) (m : FMap), NoEps m →
      NoEps (vs.foldl (fun m v => mapInsert m v []) m) := by
  intro vs
  induction vs with
  | nil => intro m h; exact h
  | cons v vs ih =>
    intro m h
    simp only [List.foldl_cons]
    exact ih _ (NoEps_insert h (by simp))

theorem get_follow_with_first_noEps (g : Grammar) (hps : ∀ p ∈ g.p, p.left ≠ "ε")
    (fuel : Nat) (fm fol2 : FMap) (h : get_follow_with_first fuel g fm = some fol2) :
    NoEps fol2 := by
  unfold get_follow_with_first at h
  simp only [] at h
  cases hpv : pushVal (g.v.foldl (fun m v => mapInsert m v []) []) g.s "#" with
  | none => rw [hpv] at h; simp at h
  | some fol1 =>
    rw [hpv] at h
    simp only [Option.bind_eq_bind, Option.some_bind] at h
    have hno0 : NoEps (g.v.foldl (fun m v => mapInsert m v []) []) :=
      foldInsertNil_noEps g.v [] (by intro kv hkv; cases hkv)
    exact followIter_noEps g hps fuel fm fol1 fol2 h
      (pushVal_noEps hpv hno0 (by decide))

theorem get_follow_noEps (g : Grammar) (hps : ∀ p ∈ g.p, p.left ≠ "ε")
    (fuel : Nat) (fol : FMap) (h : get_follow fuel g = some fol) : NoEps fol := by
  unfold get_follow at h
  cases hfm : get_first fuel g with
  | none => rw [hfm] at h; simp at h
  | some fm =>
    rw [hfm, Option.bind_eq_bind, Option.some_bind] at h
    exact get_follow_with_first_noEps g hps fuel fm fol h

/-! ### The ε column of the ACTION table stays blank -/

/-- The ε entry of every row of a table is the blank string. -/
def TableEps (A : List SMap) : Prop :=
  ∀ (i : Nat) (row : SMap), A[i]? = some row → mapGet row "ε" = some ""

theorem tableEps_update {A : List SMap} (hA : TableEps A) {i : Nat} {row : SMap}
    (hrow : A[i]? = some row) {k : String} (hk : k ≠ "ε") (val : String) :
    TableEps (A.set i (mapInsert row k val)) := by
  unfold TableEps at hA ⊢
  intro i2 row2 h2
  rw [List.getElem?_set] at h2
  by_cases hij : i = i2
  · rw [if_pos hij] at h2
    by_cases hlt : i < A.length
    · rw [if_pos hlt] at h2
      cases h2
      rw [mapGet_insert_ne row k val "ε" hk]
      exact hA i row hrow
    · rw [if_neg hlt] at h2
      cases h2
  · rw [if_neg hij] at h2
    exact hA i2 row2 h2

theorem reduceFold_eps (g2 : Grammar) (i j : Nat) :
    ∀ (flw : List String) (A A2 : List SMap),
      List.foldlM (fun A f =>
        if f ∈ g2.t then do
          let row ← A[i]?
          some (A.set i (mapInsert row f ("r" ++ natToStr j)))
        else some A) A flw = some A2 →
      (∀ f ∈ flw, f ≠ "ε") → TableEps A → TableEps A2 := by
  intro flw
  induction flw with
  | nil =>
    intro A A2 h hne hA
    rw [List.foldlM_nil] at h
    cases h
    exact hA
  | cons f fs ih =>
    intro A A2 h hne hA
    rw [List.foldlM_cons] at h
    by_cases hft : f ∈ g2.t
    · rw [if_pos hft] at h
      cases hrow : A[i]? with
      | none => rw [hrow] at h; simp at h
      | some row =>
        rw [hrow] at h
        simp only [Option.bind_eq_bind, Option.some_bind] at h
        exact ih _ A2 h (fun q hq => hne q (List.mem_cons_of_mem f hq))
          (tableEps_update hA hrow (hne f (List.mem_cons_self f fs)) _)
    · rw [if_neg hft] at h
      simp only [Option.bind_eq_bind, Option.some_bind] at h
      exact ih A A2 h (fun q hq => hne q (List.mem_cons_of_mem f hq)) hA

theorem fillItem_eps (cfuel : Nat) (g2 : Grammar) (follow : FMap)
    (lr0 : List (List Item)) (items : List Item) (i : Nat)
    (AG AG2 : List SMap × List SMap) (item : Item)
    (hwf : ItemWf g2 item)
    (hnr : ∀ p ∈ g2.p, "ε" ∉ p.right)
    (hfol : NoEps follow)
    (h : fillItem cfuel g2 follow lr0 items i AG item = some AG2)
    (hA : TableEps AG.1) : TableEps AG2.1 := by
  obtain ⟨A, G⟩ := AG
  unfold fillItem at h
  simp only [] at h
  by_cases hd : item.dot < item.right.length
  · rw [dif_pos hd] at h
    cases hg : goto cfuel items (item.right.get ⟨item.dot, hd⟩) g2 with
    | none => rw [hg] at h; simp at h
    | some gt =>
      rw [hg] at h
      simp only [Option.bind_eq_bind, Option.some_bind] at h
      cases hfind : lr0.findIdx? (fun items1 => items_eq gt items1) with
      | none =>
        rw [hfind] at h
        cases h
        exact hA
      | some jj =>
        rw [hfind] at h
        simp only [] at h
        by_cases hch : item.right.get ⟨item.dot, hd⟩ ∈ g2.t
        · rw [if_pos hch] at h
          cases hrow : A[i]? with
          | none => rw [hrow] at h; simp at h
          | some row =>
            rw [hrow] at h
            simp only [Option.some_bind] at h
            cases h
            have hch_ne : item.right.get ⟨item.dot, hd⟩ ≠ "ε" := by
              obtain ⟨p, hp, -, hr, -⟩ := hwf
              intro hcontra
              refine hnr p hp ?_
              rw [← hcontra, ← hr]
              exact List.get_mem _ _ _
            exact tableEps_update hA hrow hch_ne _
        · rw [if_neg hch] at h
          cases hrow : G[i]? with
          | none => rw [hrow] at h; simp at h
          | some row =>
            rw [hrow] at h
            simp only [Option.some_bind] at h
            cases h
            exact hA
  · rw [dif_neg hd] at h
    by_cases hacc : item.left = g2.s
    · rw [if_pos hacc] at h
      cases hrow : A[i]? with
      | none => rw [hrow] at h; simp at h
      | some row =>
        rw [hrow] at h
        simp only [Option.bind_eq_bind, Option.some_bind] at h
        cases h
        exact tableEps_update hA hrow (by decide) _
    · rw [if_neg hacc] at h
      cases hfj : g2.p.findIdx? (fun p => p.left == item.left && p.right == item.right) with
      | none => rw [hfj] at h; simp at h
      | some j =>
        rw [hfj] at h
        simp only [Option.bind_eq_bind, Option.some_bind] at h
        cases hflw : mapGet follow item.left with
        | none => rw [hflw] at h; simp at h
        | some flw =>
          rw [hflw] at h
          simp only [Option.some_bind] at h
          cases hfold : List.foldlM (fun A f =>
              if f ∈ g2.t then
                A[i]?.bind fun row => some (A.set i (mapInsert row f ("r" ++ natToStr j)))
              else some A) A flw with
          | none => rw [hfold] at h; simp at h
          | some A3 =>
            rw [hfold] at h
            simp only [Option.some_bind] at h
            have hflw_ne : ∀ f ∈ flw, f ≠ "ε" := by
              intro f hf hcontra
              exact NoEps_get hfol hflw (hcontra ▸ hf)
            have hA3 : TableEps A3 := reduceFold_eps g2 i j flw A A3 hfold hflw_ne hA
            by_cases hhash : "#" ∈ flw
            · rw [if_pos hhash] at h
              cases hrow : A3[i]? with
              | none => rw [hrow] at h; simp at h
              | some row =>
                rw [hrow] at h
                simp only [Option.some_bind] at h
                cases h
                exact tableEps_update hA3 hrow (by decide) _
            · rw [if_neg hhash] at h
              cases h
              exact hA3

theorem fillState_eps (cfuel : Nat) (g2 : Grammar) (follow : FMap)
    (lr0 : List (List Item)) (items : List Item) (i : Nat)
    (hnr : ∀ p ∈ g2.p, "ε" ∉ p.right) (hfol : NoEps follow) :
    ∀ (its : List Item) (AG AG2 : List SMap × List SMap),
      (∀ it ∈ its, ItemWf g2 it) →
      List.foldlM (fillItem cfuel g2 follow lr0 items i) AG its = some AG2 →
      TableEps AG.1 → TableEps AG2.1 := by
  intro its
  induction its with
  | nil =>
    intro AG AG2 hwf h hA
    rw [List.foldlM_nil] at h
    cases h
    exact hA
  | cons it its ih =>
    intro AG AG2 hwf h hA
    rw [List.foldlM_cons] at h
    cases hstep : fillItem cfuel g2 follow lr0 items i AG it with
    | none => rw [hstep] at h; simp at h
    | some AG3 =>
      rw [hstep] at h
      simp only [Option.bind_eq_bind, Option.some_bind] at h
      refine ih AG3 AG2 (fun y hy => hwf y (List.mem_cons_of_mem it hy)) h ?_
      exact fillItem_eps cfuel g2 follow lr0 items i AG AG3 it
        (hwf it (List.mem_cons_self it its)) hnr hfol hstep hA

theorem fillTables_eps (cfuel : Nat) (g2 : Grammar) (follow : FMap)
    (lr0 : List (List Item))
    (hnr : ∀ p ∈ g2.p, "ε" ∉ p.right) (hfol : NoEps follow) :
    ∀ (pairs : List (Nat × List Item)) (AG AG2 : List SMap × List SMap),
      (∀ pr ∈ pairs, ∀ it ∈ pr.2, ItemWf g2 it) →
      List.foldlM (fillState cfuel g2 follow lr0) AG pairs = some AG2 →
      TableEps AG.1 → TableEps AG2.1 := by
  intro pairs
  induction pairs with
  | nil =>
    intro AG AG2 hwf h hA
    rw [List.foldlM_nil] at h
    cases h
    exact hA
  | cons pr prs ih =>
    intro AG AG2 hwf h hA
    rw [List.foldlM_cons] at h
    cases hstep : fillState cfuel g2 follow lr0 AG pr with
    | none => rw [hstep] at h; simp at h
    | some AG3 =>
      rw [hstep] at h
      simp only [Option.bind_eq_bind, Option.some_bind] at h
      refine ih AG3 AG2 (fun q hq => hwf q (List.mem_cons_of_mem pr hq)) h ?_
      exact fillState_eps cfuel g2 follow lr0 pr.2 pr.1 hnr hfol pr.2 AG AG3
        (hwf pr (List.mem_cons_self pr prs)) hstep hA

/-! ### Inversion of the table-builder pipeline -/

theorem get_slr1_table_parts (fuel : Nat) (g : Grammar) (A G : List SMap)
    (h : get_slr1_table fuel g = some (.ok (A, G))) :
    ∃ follow lr0, get_follow fuel g = some follow ∧
      get_lr0_collection fuel fuel (augment g) = some lr0 ∧
      fillTables fuel (augment g) follow lr0
        (lr0.map (fun _ => actionInitRow (augment g)),
          lr0.map (fun _ => gotoInitRow (augment g))) = some (A, G) := by
  unfold get_slr1_table at h
  cases hf : get_follow fuel g with
  | none => rw [hf] at h; exact absurd h (by simp)
  | some follow =>
    rw [hf, Option.bind_eq_bind, Option.some_bind] at h
    simp only [] at h
    cases hl : get_lr0_collection fuel fuel (augment g) with
    | none => rw [hl] at h; exact absurd h (by simp)
    | some lr0 =>
      rw [hl, Option.bind_eq_bind, Option.some_bind] at h
      cases hfill : fillTables fuel (augment g) follow lr0
          (lr0.map (fun _ => actionInitRow (augment g)),
            lr0.map (fun _ => gotoInitRow (augment g))) with
      | none => rw [hfill] at h; exact absurd h (by simp)
      | some AG =>
        rw [hfill, Option.bind_eq_bind, Option.some_bind] at h
        obtain ⟨A2, G2⟩ := AG
        simp only [Option.some.injEq, Except.ok.injEq, Prod.mk.injEq] at h
        obtain ⟨rfl, rfl⟩ := h
        exact ⟨follow, lr0, rfl, rfl, hfill⟩

theorem get_lr0_collection_parts (cfuel lfuel : Nat) (g : Grammar)
    (c : List (List Item)) (h : get_lr0_collection cfuel lfuel g = some c) :
    ∃ fp c0, g.p.find? (fun p => p.left == g.s) = some fp ∧
      closure cfuel [⟨fp.left, fp.right, 0⟩] g = some c0 ∧
      lr0Loop cfuel g lfuel [c0] [c0] = some c := by
  unfold get_lr0_collection at h
  cases hfp : g.p.find? (fun p => p.left == g.s) with
  | none => rw [hfp] at h; exact absurd h (by simp)
  | some fp =>
    rw [hfp, Option.bind_eq_bind, Option.some_bind] at h
    cases hc0 : closure cfuel [⟨fp.left, fp.right, 0⟩] g with
    | none => rw [hc0] at h; exact absurd h (by simp)
    | some c0 =>
      rw [hc0, Option.bind_eq_bind, Option.some_bind] at h
      exact ⟨fp, c0, rfl, hc0, h⟩

/-- All items of all states of the canonical collection are made from
productions of the grammar. -/
theorem lr0_collection_wf (cfuel lfuel : Nat) (g : Grammar) (c : List (List Item))
    (h : get_lr0_collection cfuel lfuel g = some c) :
    ∀ st ∈ c, ∀ it ∈ st, ItemWf g it := by
  obtain ⟨fp, c0, hfp, hc0, hloop⟩ := get_lr0_collection_parts cfuel lfuel g c h
  have hfpmem : fp ∈ g.p := List.mem_of_find?_eq_some hfp
  have hc0wf : ∀ it ∈ c0, ItemWf g it := by
    refine closure_wf g cfuel _ c0 hc0 ?_
    intro y hy
    rw [List.mem_singleton.mp hy]
    exact ⟨fp, hfpmem, rfl, rfl, Nat.zero_le _⟩
  refine lr0Loop_pres cfuel g (fun st => ∀ it ∈ st, ItemWf g it) ?_ lfuel
    [c0] [c0] c hloop ?_ ?_
  · intro I x J hI hJ
    exact goto_wf g cfuel I x J hJ hI
  · intro st hst
    rw [List.mem_singleton.mp hst]
    exact hc0wf
  · intro st hst
    rw [List.mem_singleton.mp hst]
    exact hc0wf

theorem foldInsertBlank_get (k : String) :
    ∀ (ts : List String) (m : SMap), (k ∈ ts ∨ mapGet m k = some "") →
      mapGet (ts.foldl (fun r t => mapInsert r t "") m) k = some "" := by
  intro ts
  induction ts with
  | nil =>
    intro m h
    rcases h with h | h
    · cases h
    · exact h
  | cons t ts ih =>
    intro m h
    simp only [List.foldl_cons]
    apply ih
    by_cases hk : t = k
    · right
      rw [hk, mapGet_insert_self]
    · rcases h with h | h
      · rcases List.mem_cons.mp h with rfl | h2
        · exact absurd rfl hk
        · left
          exact h2
      · right
        rw [mapGet_insert_ne m t "" k hk]
        exact h

/-! ### C6 -/

/-- C6 (amended): for every validated grammar with `ε ∈ T` in which ε
does not occur on the right-hand side of any production, the ACTION
table's ε column is entirely blank (no shift, no reduce).  (The original
claim is refuted by `C6_counterexample`: a literal ε-production `A → [ε]`
*does* put a shift in the ε column.) -/
theorem C6_no_eps_shift (g : Grammar) (hval : g.validate = .ok ()) (heps : "ε" ∈ g.t)
    (hnr : ∀ p ∈ g.p, "ε" ∉ p.right) (fuel : Nat) (A G : List SMap)
    (h : get_slr1_table fuel g = some (.ok (A, G))) :
    ∀ (i : Nat) (row : SMap), A[i]? = some row → mapGet row "ε" = some "" := by
  obtain ⟨follow, lr0, hf, hl, hfill⟩ := get_slr1_table_parts fuel g A G h
  obtain ⟨hnodup, hsv, hlefts, hrights⟩ := (validate_ok_iff g).mp hval
  have hdis : g.v.Disjoint g.t := (List.nodup_append.mp hnodup).2.2
  have hveps : "ε" ∉ g.v := fun hc => hdis hc heps
  have hps : ∀ p ∈ g.p, p.left ≠ "ε" := by
    intro p hp hcontra
    exact hveps (hcontra ▸ hlefts p hp)
  have hfolNoEps : NoEps follow := get_follow_noEps g hps fuel follow hf
  have hseps : g.s ≠ "ε" := fun hc => hveps (hc ▸ hsv)
  have hnr2 : ∀ p ∈ (augment g).p, "ε" ∉ p.right := by
    intro p hp
    rcases List.mem_append.mp hp with hp2 | hp2
    · exact hnr p hp2
    · rw [List.mem_singleton.mp hp2]
      intro hc
      exact hseps (List.mem_singleton.mp hc).symm
  have hwfstates : ∀ pr ∈ lr0.enum, ∀ it ∈ pr.2, ItemWf (augment g) it := by
    intro pr hpr
    have hmem : pr.2 ∈ lr0 := by
      have := List.mem_enum_iff_getElem?.mp hpr
      exact List.getElem?_mem this
    exact lr0_collection_wf fuel fuel (augment g) lr0 hl pr.2 hmem
  have hA0 : TableEps (lr0.map (fun _ => actionInitRow (augment g))) := by
    unfold TableEps
    intro i row h2
    rw [List.getElem?_map] at h2
    cases hlr : lr0[i]? with
    | none => rw [hlr] at h2; cases h2
    | some st =>
      rw [hlr] at h2
      cases h2
      unfold actionInitRow
      rw [mapGet_insert_ne _ "#" "" "ε" (by decide)]
      exact foldInsertBlank_get "ε" (augment g).t [] (Or.inl heps)
  have hres := fillTables_eps fuel (augment g) follow lr0 hnr2 hfolNoEps lr0.enum
    (lr0.map (fun _ => actionInitRow (augment g)),
      lr0.map (fun _ => gotoInitRow (augment g))) (A, G) hwfstates hfill hA0
  unfold TableEps at hres
  exact hres

/-- A validated grammar with `ε ∈ T` and no ε on any right-hand side. -/
def gEpsT : Grammar := ⟨"S", ["S"], ["ε", "a"], [⟨"S", ["a"]⟩]⟩

/-- C6 witness: the amended theorem applied to `gEpsT`'s concrete
ACTION table. -/
theorem C6_witness :
    mapGet [("ε", ""), ("a", "s2"), ("#", "")] "ε" = some "" :=
  C6_no_eps_shift gEpsT (by rfl) (by decide) (by decide) 100
    [[("ε", ""), ("a", "s2"), ("#", "")],
      [("ε", ""), ("a", ""), ("#", "acc")],
      [("ε", ""), ("a", ""), ("#", "r0")]]
    [[("S", "1")], [("S", "")], [("S", "")]]
    (by rfl) 0 [("ε", ""), ("a", "s2"), ("#", "")] (by rfl)

/-! ### C2: freshness of the augmented start symbol -/

/-- `closure` never invents an item whose left side is a symbol that
occurs on no right-hand side. -/
theorem closure_no_left (g2 : Grammar) (s2 : String)
    (hnoright : ∀ p ∈ g2.p, s2 ∉ p.right) (n : Nat) (I J : List Item)
    (h : closure n I g2 = some J) (hIwf : ∀ x ∈ I, ItemWf g2 x) :
    ∀ x ∈ J, x.left = s2 → x ∈ I := by
  intro x hx hxl
  rcases closure_mem_src g2 n I J h x hx with hxi | ⟨-, p, hp, rfl, tr, htrJ, htrd, htrget⟩
  · exact hxi
  · exfalso
    have hpl : p.left = s2 := hxl
    obtain ⟨q, hq, -, hqr, -⟩ := closure_wf g2 n I J h hIwf tr htrJ
    have hmem : s2 ∈ tr.right := by
      rw [← hpl, ← htrget]
      exact List.get_mem _ _ _
    rw [hqr] at hmem
    exact hnoright q hq hmem

/-- `goto` never produces the dot-0 start item `S' → ·S` when `S'`
occurs on no right-hand side. -/
theorem goto_no_init (g2 : Grammar) (s2 strt : String)
    (hnoright : ∀ p ∈ g2.p, s2 ∉ p.right) (n : Nat) (I : List Item) (x : String)
    (J : List Item) (h : goto n I x g2 = some J)
    (hIwf : ∀ y ∈ I, ItemWf g2 y) :
    (⟨s2, [strt], 0⟩ : Item) ∉ J := by
  intro hmem
  have hJwf : ∀ y ∈ J, ItemWf g2 y := goto_wf g2 n I x J h hIwf
  rcases goto_mem_src g2 n I x J h _ hmem with ⟨z, -, -, -, heq⟩ |
    ⟨-, p, hp, heq, tr, htrJ, htrd, htrget⟩
  · have hd := congrArg Item.dot heq
    simp only at hd
    exact Nat.succ_ne_zero z.dot hd.symm
  · have hpl : p.left = s2 := (congrArg Item.left heq).symm
    obtain ⟨q, hq, -, hqr, -⟩ := hJwf tr htrJ
    have hmem2 : s2 ∈ tr.right := by
      rw [← hpl, ← htrget]
      exact List.get_mem _ _ _
    rw [hqr] at hmem2
    exact hnoright q hq hmem2

/-- The accept item `S' → S·` only arises by `goto` on `S` from a set
containing `S' → ·S`. -/
theorem goto_acc_src (g2 : Grammar) (s2 strt : String) (n : Nat) (I : List Item)
    (x : String) (J : List Item) (h : goto n I x g2 = some J)
    (hmem : (⟨s2, [strt], 1⟩ : Item) ∈ J) :
    x = strt ∧ (⟨s2, [strt], 0⟩ : Item) ∈ I := by
  rcases goto_mem_src g2 n I x J h _ hmem with ⟨z, hz, hzd, hzx, heq⟩ | ⟨h0, -, -, -, -⟩
  · obtain ⟨zl, zr, zd⟩ := z
    simp only [Item.mk.injEq] at heq
    obtain ⟨h1, h2, h3⟩ := heq
    have hzd0 : zd = 0 := by omega
    subst h1
    subst h2
    subst hzd0
    refine ⟨?_, hz⟩
    simpa using hzx.symm
  · simp at h0

theorem lr0Loop_acc (cfuel : Nat) (g2 : Grammar) (s2 strt : String) (c0 : List Item)
    (hnoright : ∀ p ∈ g2.p, s2 ∉ p.right) :
    ∀ (n : Nat) (c e cout : List (List Item)),
      lr0Loop cfuel g2 n c e = some cout →
      (∀ st ∈ c, ∀ it ∈ st, ItemWf g2 it) →
      (∀ st ∈ e, st ∈ c) →
      e.Nodup →
      c.Nodup →
      (∀ st ∈ c, (⟨s2, [strt], 0⟩ : Item) ∈ st → st = c0) →
      (∀ st ∈ c, (⟨s2, [strt], 1⟩ : Item) ∈ st → goto cfuel c0 strt g2 = some st) →
      (∀ st ∈ c, st ∉ e → ∀ x ∈ g2.v ++ g2.t,
        ∃ J, goto cfuel st x g2 = some J ∧ (0 < J.length → J ∈ c)) →
      ((∀ st ∈ cout, ∀ it ∈ st, ItemWf g2 it) ∧
        cout.Nodup ∧
        (∀ st ∈ cout, (⟨s2, [strt], 0⟩ : Item) ∈ st → st = c0) ∧
        (∀ st ∈ cout, (⟨s2, [strt], 1⟩ : Item) ∈ st → goto cfuel c0 strt g2 = some st) ∧
        (∀ st ∈ cout, ∀ x ∈ g2.v ++ g2.t,
          ∃ J, goto cfuel st x g2 = some J ∧ (0 < J.length → J ∈ cout))) := by
  intro n
  induction n with
  | zero =>
    intro c e cout h hwf he hend hcnd hinit hacc hproc
    cases e with
    | nil =>
      cases h
      exact ⟨hwf, hcnd, hinit, hacc, fun st hst => hproc st hst (by simp)⟩
    | cons a as => cases h
  | succ n ih =>
    intro c e cout h hwf he hend hcnd hinit hacc hproc
    cases e with
    | nil =>
      cases h
      exact ⟨hwf, hcnd, hinit, hacc, fun st hst => hproc st hst (by simp)⟩
    | cons items rest =>
      have hitems_c : items ∈ c := he items (List.mem_cons_self _ _)
      have hitems_wf : ∀ it ∈ items, ItemWf g2 it := hwf items hitems_c
      simp only [lr0Loop] at h
      cases hfold : List.foldlM (lr0Step cfuel g2 items) (c, rest) (g2.v ++ g2.t) with
      | none => rw [hfold] at h; simp at h
      | some ce2 =>
        rw [hfold] at h
        simp only [Option.bind_eq_bind, Option.some_bind] at h
        obtain ⟨c2, e2⟩ := ce2
        obtain ⟨d, hc2, he2, hd, hall, hnd⟩ :=
          lr0Fold_spec cfuel g2 items (g2.v ++ g2.t) c rest c2 e2 hfold
        have hc2nd : c2.Nodup := hnd hcnd
        have hrest_sub : ∀ st ∈ rest, st ∈ c :=
          fun st hst => he st (List.mem_cons_of_mem _ hst)
        have hdg : ∀ J ∈ d, ∃ x, goto cfuel items x g2 = some J := by
          intro J hJ
          obtain ⟨x, -, hgx, -⟩ := hd J hJ
          exact ⟨x, hgx⟩
        subst hc2
        subst he2
        have hdnJ : d.Nodup := (List.nodup_append.mp hc2nd).2.1
        have hdisj : List.Disjoint c d := (List.nodup_append.mp hc2nd).2.2
        refine ih (c ++ d) (rest ++ d) cout h ?_ ?_ ?_ hc2nd ?_ ?_ ?_
        · -- well-formedness
          intro st hst
          rcases List.mem_append.mp hst with hst | hst
          · exact hwf st hst
          · obtain ⟨x, hgx⟩ := hdg st hst
            exact goto_wf g2 cfuel items x st hgx hitems_wf
        · -- queue inside collection
          intro st hst
          rcases List.mem_append.mp hst with hst | hst
          · exact List.mem_append_left d (hrest_sub st hst)
          · exact List.mem_append_right c hst
        · -- queue nodup
          refine List.Nodup.append (List.Nodup.of_cons hend) hdnJ ?_
          intro a ha hb
          exact hdisj (hrest_sub a ha) hb
        · -- the start item pins the initial state
          intro st hst hin
          rcases List.mem_append.mp hst with hst | hst
          · exact hinit st hst hin
          · obtain ⟨x, hgx⟩ := hdg st hst
            exact absurd hin (goto_no_init g2 s2 strt hnoright cfuel items x st hgx hitems_wf)
        · -- the accept item pins goto(c0, S)
          intro st hst hin
          rcases List.mem_append.mp hst with hst | hst
          · exact hacc st hst hin
          · obtain ⟨x, hgx⟩ := hdg st hst
            obtain ⟨rfl, hinitmem⟩ := goto_acc_src g2 s2 strt cfuel items x st hgx hin
            rw [hinit items hitems_c hinitmem] at hgx
            exact hgx
        · -- processed states have their successors in the collection
          intro st hst hnotin x hx
          rcases List.mem_append.mp hst with hst | hst
          · by_cases hsteq : st = items
            · subst hsteq
              obtain ⟨J, hgJ, himp⟩ := hall x hx
              exact ⟨J, hgJ, fun hpos => himp hpos⟩
            · have hstne : st ∉ rest := fun hr => hnotin (List.mem_append_left d hr)
              have hstnotine : st ∉ items :: rest := by
                intro hin
                rcases List.mem_cons.mp hin with h2 | h2
                · exact hsteq h2
                · exact hstne h2
              obtain ⟨J, hgJ, himp⟩ := hproc st hst hstnotine x hx
              exact ⟨J, hgJ, fun hpos => List.mem_append_left d (himp hpos)⟩
          · exact absurd (List.mem_append_right rest hst) hnotin

theorem find?_no_match_append (pred : Product → Bool) :
    ∀ (l1 l2 : List Product), (∀ a ∈ l1, pred a = false) →
      (l1 ++ l2).find? pred = l2.find? pred := by
  intro l1
  induction l1 with
  | nil => intro l2 _; rfl
  | cons a l1 ih =>
    intro l2 h
    rw [List.cons_append, List.find?_cons_of_neg _ (by simp [h a (List.mem_cons_self a l1)])]
    exact ih l2 (fun b hb => h b (List.mem_cons_of_mem a hb))

/-- C2 (amended): for every validated grammar on which the apostrophe
suffix really is fresh (`S ++ "'" ∉ V ∪ T`), the augmented start symbol
collides with nothing in `V ∪ T` and appears on the right of no
production; state 0 of the canonical collection is
`CLOSURE({S' → ·S})`; the only reduce item with left `S'` is `S' → S·`;
and it occurs in exactly one state.  (The freshness hypothesis is
necessary: `C2_counterexample` shows the claim fails for the canonical
expression grammar, where `S' = "E'"` already names a non-terminal.) -/
theorem C2_augment_fresh (g : Grammar) (hval : g.validate = .ok ())
    (hfv : (g.s ++ "\x27") ∉ g.v) (hft : (g.s ++ "\x27") ∉ g.t) :
    ((augment g).s ∉ g.v ∧ (augment g).s ∉ g.t ∧
      (∀ p ∈ (augment g).p, (augment g).s ∉ p.right)) ∧
    (∀ cfuel lfuel c, get_lr0_collection cfuel lfuel (augment g) = some c →
      (∃ c0, closure cfuel [⟨(augment g).s, [g.s], 0⟩] (augment g) = some c0 ∧
        c.head? = some c0) ∧
      (∀ st ∈ c, ∀ it ∈ st, it.left = (augment g).s → ¬ it.dot < it.right.length →
        it = ⟨(augment g).s, [g.s], 1⟩) ∧
      (∃! i : Fin c.length, (⟨(augment g).s, [g.s], 1⟩ : Item) ∈ c.get i)) := by
  obtain ⟨hnodup, hsv, hlefts, hrights⟩ := (validate_ok_iff g).mp hval
  have haugp : (augment g).p = g.p ++ [⟨g.s ++ "\x27", [g.s]⟩] := rfl
  have haugs : (augment g).s = g.s ++ "\x27" := rfl
  have hlne : ∀ p ∈ g.p, p.left ≠ g.s ++ "\x27" := by
    intro p hp hcontra
    exact hfv (hcontra ▸ hlefts p hp)
  have hnoright : ∀ p ∈ (augment g).p, (g.s ++ "\x27") ∉ p.right := by
    intro p hp
    rw [haugp] at hp
    rcases List.mem_append.mp hp with hp2 | hp2
    · intro hc
      rcases hrights p hp2 _ hc with hh | hh
      · exact hfv hh
      · exact hft hh
    · rw [List.mem_singleton.mp hp2]
      intro hc
      have : g.s ++ "\x27" = g.s := List.mem_singleton.mp hc
      exact absurd hsv (this ▸ hfv)
  have hprodonly : ∀ p ∈ (augment g).p, p.left = g.s ++ "\x27" →
      p = ⟨g.s ++ "\x27", [g.s]⟩ := by
    intro p hp hpl
    rw [haugp] at hp
    rcases List.mem_append.mp hp with hp2 | hp2
    · exact absurd hpl (hlne p hp2)
    · exact List.mem_singleton.mp hp2
  refine ⟨⟨haugs ▸ hfv, haugs ▸ hft, fun p hp => haugs ▸ hnoright p hp⟩, ?_⟩
  intro cfuel lfuel c hc
  obtain ⟨fp, c0, hfp, hc0, hloop⟩ := get_lr0_collection_parts cfuel lfuel (augment g) c hc
  have hfind : (augment g).p.find? (fun p => p.left == (augment g).s) =
      some ⟨g.s ++ "\x27", [g.s]⟩ := by
    rw [haugp, haugs]
    rw [find?_no_match_append _ g.p _ ?_]
    · simp
    · intro a ha
      exact beq_eq_false_iff_ne.mpr (hlne a ha)
  have hfpe : fp = (⟨g.s ++ "\x27", [g.s]⟩ : Product) := by
    rw [hfind] at hfp
    exact (Option.some.injEq _ _ ▸ hfp).symm
  subst hfpe
  have hc0e : closure cfuel [⟨(augment g).s, [g.s], 0⟩] (augment g) = some c0 := hc0
  have hseed_wf : ∀ x ∈ [(⟨g.s ++ "\x27", [g.s], 0⟩ : Item)], ItemWf (augment g) x := by
    intro x hx
    rw [List.mem_singleton.mp hx]
    refine ⟨⟨g.s ++ "\x27", [g.s]⟩, ?_, rfl, rfl, by simp⟩
    rw [haugp]
    exact List.mem_append_right g.p (List.mem_singleton_self _)
  have hc0wf : ∀ it ∈ c0, ItemWf (augment g) it :=
    closure_wf (augment g) cfuel _ c0 hc0 hseed_wf
  have hinitc0 : (⟨g.s ++ "\x27", [g.s], 0⟩ : Item) ∈ c0 :=
    closure_superset (augment g) cfuel _ c0 hc0 _ (List.mem_singleton_self _)
  have haccnotc0 : (⟨g.s ++ "\x27", [g.s], 1⟩ : Item) ∉ c0 := by
    intro hmem
    rcases closure_mem_src (augment g) cfuel _ c0 hc0 _ hmem with hin | ⟨h0, -⟩
    · have := List.mem_singleton.mp hin
      simp [Item.mk.injEq] at this
    · simp at h0
  obtain ⟨hwfc, hnodc, hinitc, haccc, hprocc⟩ :=
    lr0Loop_acc cfuel (augment g) (g.s ++ "\x27") g.s c0 hnoright lfuel [c0] [c0] c hloop
      (by intro st hst; rw [List.mem_singleton.mp hst]; exact hc0wf)
      (fun st hst => hst)
      (List.nodup_singleton c0)
      (List.nodup_singleton c0)
      (by intro st hst _; exact List.mem_singleton.mp hst)
      (by
        intro st hst hin
        rw [List.mem_singleton.mp hst] at hin
        exact absurd hin haccnotc0)
      (by
        intro st hst hnotin
        exact absurd hst hnotin)
  obtain ⟨dd, hdd⟩ := lr0Loop_shape cfuel (augment g) lfuel [c0] [c0] c hloop
  have hhead : c.head? = some c0 := by
    rw [hdd]
    rfl
  have hc0c : c0 ∈ c := by
    rw [hdd]
    exact List.mem_cons_self c0 dd
  refine ⟨⟨c0, hc0e, hhead⟩, ?_, ?_⟩
  · -- the only ended item with left S' is S' → S·
    intro st hst it hit hleft hdot
    obtain ⟨p, hp, hl, hr, hdle⟩ := hwfc st hst it hit
    have hpe : p = ⟨g.s ++ "\x27", [g.s]⟩ := hprodonly p hp (by rw [← hl, hleft, haugs])
    have hre : it.right = [g.s] := by rw [hr, hpe]
    have hlen : it.right.length = 1 := by rw [hre]; rfl
    have hdle2 : it.dot ≤ 1 := by
      have := hdle
      rw [← hr, hlen] at this
      exact this
    have hd1 : it.dot = 1 := by omega
    obtain ⟨l, r, dt⟩ := it
    simp only at hleft hre hd1
    rw [haugs]
    simp [Item.mk.injEq]
    exact ⟨hleft, hre, hd1⟩
  · -- existence and uniqueness of the accepting state
    obtain ⟨J, hgJ, himp⟩ := hprocc c0 hc0c g.s
      (List.mem_append_left _ (List.mem_append_left _ hsv))
    have haccJ : (⟨g.s ++ "\x27", [g.s], 1⟩ : Item) ∈ J := by
      have := goto_complete_adv (augment g) cfuel c0 g.s J hgJ
        ⟨g.s ++ "\x27", [g.s], 0⟩ hinitc0 (by simp) (by simp)
        (Or.inl (List.mem_append_left _ hsv))
      exact this
    have hJc : J ∈ c := himp (List.length_pos_of_mem haccJ)
    obtain ⟨i, hi⟩ := List.mem_iff_get.mp hJc
    refine ⟨i, ?_, ?_⟩
    · show (⟨(augment g).s, [g.s], 1⟩ : Item) ∈ c.get i
      rw [hi]
      exact haccJ
    intro j hj
    have hj2 : (⟨g.s ++ "\x27", [g.s], 1⟩ : Item) ∈ c.get j := hj
    have hstj : c.get j ∈ c := List.get_mem c j _
    have hgj : goto cfuel c0 g.s (augment g) = some (c.get j) :=
      haccc (c.get j) hstj hj2
    have hgi : goto cfuel c0 g.s (augment g) = some (c.get i) := by
      rw [hi]
      exact hgJ
    have : c.get j = c.get i := by
      have := hgj.symm.trans hgi
      exact Option.some.injEq _ _ ▸ this
    exact (List.Nodup.get_inj_iff hnodc).mp this

/-- C2 counterexample: on the spec's own expression grammar the claim
fails.  The grammar validates, yet the augmented start symbol
`"E" ++ "'" = "E'"` is already a non-terminal, so it collides with
`V`; and state 0 of the canonical collection is the closure seeded from
the first production whose left side is `E'` — namely
`E' → ·+ T E'` — not the closure of the fresh item `E' → ·E` (the
start item `E' → ·E` is absent from state 0). -/
theorem C2_counterexample :
    exprGrammar.validate = .ok () ∧
    (augment exprGrammar).s ∈ exprGrammar.v ∧
    (get_lr0_collection 100 100 (augment exprGrammar)).bind List.head? =
      some [⟨"E\x27", ["+", "T", "E\x27"], 0⟩] ∧
    (⟨"E\x27", ["E"], 0⟩ : Item) ∉ [(⟨"E\x27", ["+", "T", "E\x27"], 0⟩ : Item)] := by
  refine ⟨by rfl, by decide, by rfl, by decide⟩

/-- C2 witness: the amended theorem applied to the grammar `S → a`,
whose augmented start symbol `S'` is genuinely fresh; its canonical
collection places the accept item `S' → S·` alone in state 1. -/
theorem C2_witness :
    (⟨"S\x27", ["S"], 1⟩ : Item) = ⟨(augment g0).s, [g0.s], 1⟩ :=
  ((C2_augment_fresh g0 (by rfl) (by decide) (by decide)).2 100 100
      [[⟨"S\x27", ["S"], 0⟩, ⟨"S", ["a"], 0⟩],
        [⟨"S\x27", ["S"], 1⟩],
        [⟨"S", ["a"], 1⟩]] (by rfl)).2.1
    [⟨"S\x27", ["S"], 1⟩] (by decide) ⟨"S\x27", ["S"], 1⟩ (by decide)
    (by rfl) (by decide)

end SLR1
